import Mathlib

/-!
Verification of the wire-protocol multiplexing harness of vim-padre
(`padre/integration/features/steps/shared.py`).

The development shallowly embeds, in order:

* the frame decoder of `do_read_from_padre` (lines 156-172), which repeatedly
  applies CPython's `json._default_decoder.raw_decode` to a character buffer
  and collects the raw substrings of the decoded top-level JSON values,
  skipping `json.decoder.WHITESPACE` between them.  `raw_decode` is modelled
  as a recognizer `scan` that returns the number of characters consumed by
  one top-level JSON value, faithful to CPython's `py_scanstring`,
  `JSONArray`, `JSONObject` and `NUMBER_RE`;
* the `Padre` session object (request counter, last request number, port);
* the match engine `check_json` / `check_calls_in`, with Python's `re`
  matching abstracted as a boolean parameter, and the concrete literal-only
  instance `reMatchLit`;
* the post-termination check `padre_not_running`.
-/

namespace VimPadre

/-! ### Character classes

`wsChar` models the character class of `json.decoder.WHITESPACE`, the regex
`[ \t\n\r]*` used both by `do_read_from_padre` and inside the JSON scanner. -/

def wsChar (c : Char) : Bool :=
  c = ' ' || c = '\t' || c = '\n' || c = '\r'

/-- Number of leading whitespace characters, i.e. the `.end()` of
`WHITESPACE.match(l, 0)` when `l` is the remaining input. -/
def wsCount (l : List Char) : Nat := (l.takeWhile wsChar).length

/-- Number of leading ASCII digits (the `\d*` munch of `NUMBER_RE`). -/
def dcount (l : List Char) : Nat := (l.takeWhile Char.isDigit).length

/-- Hexadecimal digit test for the four digits of a `\uXXXX` escape.
CPython accepts a few exotic `int(s, 16)` forms (embedded sign or blank);
those are out of scope here, plain four-hex-digit escapes are modelled. -/
def isHexDigit (c : Char) : Bool :=
  c.isDigit || ('a' ≤ c && c ≤ 'f') || ('A' ≤ c && c ≤ 'F')

/-- Opening curly brace character. -/
def lbrace : Char := Char.ofNat 123

/-- Closing curly brace character. -/
def rbrace : Char := Char.ofNat 125

/-! ### Error messages of the scanner (all surface as `ValueError`) -/

def errExpectingValue : String := "Expecting value"
def errUnterminated : String := "Unterminated string"
def errControlChar : String := "Invalid control character"
def errBadEscape : String := "Invalid escape"
def errBadUEscape : String := "Invalid uXXXX escape"
def errComma : String := "Expecting comma delimiter"
def errColon : String := "Expecting colon delimiter"
def errPropName : String := "Expecting property name enclosed in double quotes"
def errFuel : String := "fuel exhausted"

/-- Escape characters accepted by `py_scanstring`'s `BACKSLASH` table. -/
def escChar (e : Char) : Bool :=
  e = '"' || e = '\\' || e = '/' || e = 'b' || e = 'f' || e = 'n' || e = 'r' || e = 't'

/-- Scan the body of a JSON string, starting just after the opening quote;
returns the number of characters consumed including the closing quote.
Models CPython's `py_scanstring` (with `strict=True`, hence the control
character error).  Surrogate-pair pairing only changes the decoded value,
never the consumed length or the error behaviour, so it is not replayed. -/
def scanStringBody : List Char → Except String Nat
  | [] => .error errUnterminated
  | c :: r =>
    if c = '"' then .ok 1
    else if c = '\\' then
      match r with
      | [] => .error errUnterminated
      | e :: r2 =>
        if e = 'u' then
          match r2 with
          | h1 :: h2 :: h3 :: h4 :: r3 =>
            if isHexDigit h1 && isHexDigit h2 && isHexDigit h3 && isHexDigit h4 then
              match scanStringBody r3 with
              | .ok n => .ok (6 + n)
              | .error er => .error er
            else .error errBadUEscape
          | _ => .error errBadUEscape
        else if escChar e then
          match scanStringBody r2 with
          | .ok n => .ok (2 + n)
          | .error er => .error er
        else .error errBadEscape
    else if c.val < 32 then .error errControlChar
    else
      match scanStringBody r with
      | .ok n => .ok (1 + n)
      | .error er => .error er

/-! ### Number lexing (CPython's `NUMBER_RE`)

The regex is `(-?(?:0|[1-9]\d*))(\.\d+)?([eE][-+]?\d+)?`; each scanner below
returns the greedy match length of one group. -/

/-- Length of `0|[1-9]\d*` at the head of `l`, if it matches. -/
def scanIntDigits : List Char → Option Nat
  | [] => none
  | c :: r =>
    if c = '0' then some 1
    else if c.isDigit then some (1 + dcount r)
    else none

/-- Length of `-?(?:0|[1-9]\d*)` at the head of `l`, if it matches. -/
def scanIntPart : List Char → Option Nat
  | [] => none
  | c :: r =>
    if c = '-' then
      match scanIntDigits r with
      | some n => some (n + 1)
      | none => none
    else scanIntDigits (c :: r)

/-- Length of the optional fraction group `(\.\d+)?` (0 when absent). -/
def scanFracLen : List Char → Nat
  | [] => 0
  | c :: r =>
    if c = '.' then (if dcount r = 0 then 0 else 1 + dcount r) else 0

/-- Length of the optional exponent group `([eE][-+]?\d+)?` (0 when absent). -/
def scanExpLen : List Char → Nat
  | [] => 0
  | c :: r =>
    if c = 'e' || c = 'E' then
      match r with
      | [] => 0
      | c2 :: r2 =>
        if c2 = '+' || c2 = '-' then (if dcount r2 = 0 then 0 else 2 + dcount r2)
        else (if dcount (c2 :: r2) = 0 then 0 else 1 + dcount (c2 :: r2))
    else 0

/-- Full match length of `NUMBER_RE` at the head of `l`, if the mandatory
integer part matches. -/
def scanNumber (l : List Char) : Option Nat :=
  match scanIntPart l with
  | none => none
  | some i =>
    let f := scanFracLen (l.drop i)
    let e := scanExpLen (l.drop (i + f))
    some (i + f + e)

/-! ### Literal constants recognized by `py_make_scanner`'s `_scan_once` -/

def litNull : List Char := ['n', 'u', 'l', 'l']
def litTrue : List Char := ['t', 'r', 'u', 'e']
def litFalse : List Char := ['f', 'a', 'l', 's', 'e']
def litNaN : List Char := ['N', 'a', 'N']
def litInf : List Char := ['I', 'n', 'f', 'i', 'n', 'i', 't', 'y']
def litNegInf : List Char := '-' :: litInf

/-- Test whether `s` starts with the literal `lit` (`s[idx:idx+k] == lit`). -/
def takesLit (s lit : List Char) : Prop := s.take lit.length = lit

instance (s lit : List Char) : Decidable (takesLit s lit) := by
  unfold takesLit; infer_instance

/-! ### The scanner

One fueled function covers the mutually recursive pieces of CPython's
scanner; the mode names the piece:

* `value`     — `_scan_once(s, idx)` with the input already dropped to `idx`;
* `listFirst` — `JSONArray` just after the opening bracket;
* `listElems` — `JSONArray`'s element loop, positioned at an element;
* `objFirst`  — `JSONObject` just after the opening brace;
* `objElems`  — `JSONObject`'s member loop, positioned after a key's
  opening quote.

The result is the number of characters consumed.  Fuel decreases on every
recursive call; `rawDecode` supplies enough for any input it is given. -/
inductive ScanMode where
  | value
  | listFirst
  | listElems
  | objFirst
  | objElems
deriving DecidableEq

def scan : Nat → ScanMode → List Char → Except String Nat
  | 0, _, _ => .error errFuel
  | fuel + 1, .value, s =>
    match s with
    | [] => .error errExpectingValue
    | c :: r =>
      if c = '"' then
        match scanStringBody r with
        | .ok n => .ok (n + 1)
        | .error e => .error e
      else if c = lbrace then
        match scan fuel .objFirst r with
        | .ok n => .ok (n + 1)
        | .error e => .error e
      else if c = '[' then
        match scan fuel .listFirst r with
        | .ok n => .ok (n + 1)
        | .error e => .error e
      else if takesLit s litNull then .ok 4
      else if takesLit s litTrue then .ok 4
      else if takesLit s litFalse then .ok 5
      else
        match scanNumber s with
        | some n => .ok n
        | none =>
          if takesLit s litNaN then .ok 3
          else if takesLit s litInf then .ok 8
          else if takesLit s litNegInf then .ok 9
          else .error errExpectingValue
  | fuel + 1, .listFirst, s =>
    let w := wsCount s
    if (s.drop w).head? = some ']' then .ok (w + 1)
    else
      match scan fuel .listElems (s.drop w) with
      | .ok n => .ok (w + n)
      | .error e => .error e
  | fuel + 1, .listElems, s =>
    match scan fuel .value s with
    | .error e => .error e
    | .ok n =>
      let w := wsCount (s.drop n)
      match (s.drop (n + w)).head? with
      | some c =>
        if c = ']' then .ok (n + w + 1)
        else if c = ',' then
          let r2 := s.drop (n + w + 1)
          let w2 := wsCount r2
          match scan fuel .listElems (r2.drop w2) with
          | .ok m => .ok (n + w + 1 + w2 + m)
          | .error e => .error e
        else .error errComma
      | none => .error errComma
  | fuel + 1, .objFirst, s =>
    let w := wsCount s
    match (s.drop w).head? with
    | some c =>
      if c = rbrace then .ok (w + 1)
      else if c = '"' then
        match scan fuel .objElems (s.drop (w + 1)) with
        | .ok n => .ok (w + 1 + n)
        | .error e => .error e
      else .error errPropName
    | none => .error errPropName
  | fuel + 1, .objElems, s =>
    match scanStringBody s with
    | .error e => .error e
    | .ok k =>
      let w1 := wsCount (s.drop k)
      match (s.drop (k + w1)).head? with
      | some c =>
        if c = ':' then
          let r2 := s.drop (k + w1 + 1)
          let w2 := wsCount r2
          match scan fuel .value (r2.drop w2) with
          | .error e => .error e
          | .ok n =>
            let base := k + w1 + 1 + w2 + n
            let w3 := wsCount (s.drop base)
            match (s.drop (base + w3)).head? with
            | some c2 =>
              if c2 = rbrace then .ok (base + w3 + 1)
              else if c2 = ',' then
                let r3 := s.drop (base + w3 + 1)
                let w4 := wsCount r3
                match (r3.drop w4).head? with
                | some c3 =>
                  if c3 = '"' then
                    match scan fuel .objElems (r3.drop (w4 + 1)) with
                    | .ok m => .ok (base + w3 + 1 + w4 + 1 + m)
                    | .error e => .error e
                  else .error errPropName
                | none => .error errPropName
              else .error errComma
            | none => .error errComma
        else .error errColon
      | none => .error errColon

/-- Model of `json._default_decoder.raw_decode(line, idx)` applied to the
input already dropped to `idx`: the number of characters one top-level JSON
value consumes, or the `ValueError` message.  The fuel `3 * length + 3`
strictly dominates the scanner's recursion depth on any input. -/
def rawDecode (u : List Char) : Except String Nat :=
  scan (3 * u.length + 3) .value u

/-- A buffer holding exactly one complete valid JSON value: `raw_decode`
succeeds on it and consumes it entirely. -/
def ValidJson (u : List Char) : Bool :=
  match rawDecode u with
  | .ok n => n == u.length
  | .error _ => false

/-! ### The frame decoder of `do_read_from_padre` (shared.py lines 156-172)

The Python loop is

    idx = json.decoder.WHITESPACE.match(line, 0).end()
    end = len(line)
    while idx != end:
        (_, to) = json._default_decoder.raw_decode(line, idx=idx)
        results.append(line[idx:to])
        idx = json.decoder.WHITESPACE.match(line, to).end()

with any `ValueError` re-raised.  Each call decodes only the buffer passed
to it; nothing is carried between calls.  The loop consumes at least one
character per iteration, so `length + 1` fuel never runs out. -/
def decodeLoop : Nat → List Char → Nat → Except String (List (List Char))
  | 0, _, _ => .error errFuel
  | fuel + 1, s, idx =>
    if idx = s.length then .ok []
    else
      match rawDecode (s.drop idx) with
      | .error e => .error e
      | .ok n =>
        match decodeLoop fuel s (idx + n + wsCount (s.drop (idx + n))) with
        | .error e => .error e
        | .ok rest => .ok ((s.drop idx).take n :: rest)

/-- Decode stage of `do_read_from_padre`: split one read's buffer into the
raw substrings of the complete top-level JSON values it contains. -/
def do_read_from_padre (line : List Char) : Except String (List (List Char)) :=
  decodeLoop (line.length + 1) line (wsCount line)

/-! ### Whitespace-separated concatenations of complete values

`chain ps` is the buffer `v1 ++ w1 ++ v2 ++ w2 ++ ... ++ vn ++ wn` built
from pairs `(vi, wi)` of a complete JSON value and trailing whitespace;
`chainOk` demands each `vi` be complete and valid, each `wi` be whitespace,
and each separator between two values be nonempty (only the final `wn` may
be empty). -/

def chain : List (List Char × List Char) → List Char
  | [] => []
  | (v, w) :: rest => v ++ w ++ chain rest

def chainOk : List (List Char × List Char) → Bool
  | [] => true
  | (v, w) :: rest =>
    ValidJson v && w.all wsChar && (rest.isEmpty || !w.isEmpty) && chainOk rest

/-- Safe right-extension of a scanner input: appending `t` cannot extend any
token that ended flush with the buffer, because `t` is empty or starts with
whitespace. -/
def safeT : List Char → Bool
  | [] => true
  | c :: _ => wsChar c

/-! ### The `Padre` session object (shared.py lines 27-136)

Fields mirror `Padre.__init__`; the process handle and socket are external
resources and are not part of the pure state. -/

structure Padre where
  executableF : String
  debuggerF : Option String
  programTypeF : Option String
  portF : Option Nat
  pidF : Option Nat
  childrenF : List Nat
  requestCounterF : Nat
  lastRequestNumberF : Option Nat
deriving DecidableEq, Repr

/-- Model of `Padre.__init__(executable, debugger, program_type)`. -/
def Padre.init (executable : String) (debugger programType : Option String) : Padre :=
  { executableF := executable
    debuggerF := debugger
    programTypeF := programType
    portF := none
    pidF := none
    childrenF := []
    requestCounterF := 1
    lastRequestNumberF := none }

/-- Model of the `request_counter` property (lines 95-102): store the current
counter as the last request number, bump the counter, return the stored
value. -/
def Padre.request_counter (p : Padre) : Nat × Padre :=
  (p.requestCounterF,
   { p with
     lastRequestNumberF := some p.requestCounterF
     requestCounterF := p.requestCounterF + 1 })

/-- Model of the `last_request_number` property (lines 104-109): a plain
field read, `None` when nothing was issued yet. -/
def Padre.last_request_number (p : Padre) : Option Nat :=
  p.lastRequestNumberF

/-- Spec-side `lastRequestNumber()` from section 4.4 of the design: fails
with `NoRequestIssued` when no number has been issued yet.  Stated from the
spec's words, for comparison with `Padre.last_request_number`. -/
def lastRequestNumberSpec (p : Padre) : Except String Nat :=
  match p.lastRequestNumberF with
  | none => .error "NoRequestIssued"
  | some n => .ok n

/-- Perform `k` successive reads of `request_counter`, returning the values
in order together with the final state. -/
def Padre.reads (p : Padre) : Nat → List Nat × Padre
  | 0 => ([], p)
  | k + 1 =>
    let (v, p1) := p.request_counter
    let (vs, p2) := p1.reads k
    (v :: vs, p2)

/-- Model of the `port` property (lines 64-71): `if not self._port`, allocate
via `get_unused_localhost_port` and cache.  Python truthiness makes both
`None` and `0` allocate.  The allocation result is passed in as `alloc`
since it comes from the operating system (`sock.bind(("", 0))`), which
never assigns port number `0`. -/
def Padre.port (alloc : Nat) (p : Padre) : Nat × Padre :=
  match p.portF with
  | some v =>
    if v = 0 then (alloc, { p with portF := some alloc })
    else (v, p)
  | none => (alloc, { p with portF := some alloc })

/-- Perform one `port` read per allocator draw in `allocs`, returning the
values read in order. -/
def Padre.portReads (p : Padre) : List Nat → List Nat
  | [] => []
  | a :: rest =>
    let (v, p1) := p.port a
    v :: p1.portReads rest

/-! ### Decoded JSON values for the match engine

`check_json` and `check_calls_in` operate on values produced by
`json.loads`; `PyJson` is that value universe.  `bool` is kept separate
because Python's `bool` is a subclass of `int` and hits the
`isinstance(..., int)` branch. -/

inductive PyJson where
  | null
  | bool (b : Bool)
  | int (n : Int)
  | str (s : String)
  | list (xs : List PyJson)
  | dict (kvs : List (String × PyJson))

/-- Mapping test (`isinstance(x, dict)`). -/
def PyJson.isDict : PyJson → Bool
  | .dict _ => true
  | _ => false

/-- Integer test (`isinstance(x, int)`; Python's `bool` is an `int`). -/
def PyJson.isInt : PyJson → Bool
  | .int _ => true
  | .bool _ => true
  | _ => false

/-- Python truthiness of a value hitting the `isinstance(..., int)` branch. -/
def PyJson.intTruthy : PyJson → Bool
  | .int n => n != 0
  | .bool b => b
  | _ => false

/-! ### Python `str()` of decoded JSON values

`check_calls_in` compares `str(args[i])` patterns against
`str(actual_element)`.  Containers render their elements with `repr`;
string quoting inside containers uses the common single-quote form. -/

mutual

def pyStrJ : PyJson → String
  | .str s => s
  | v => pyReprJ v

def pyReprJ : PyJson → String
  | .null => "None"
  | .bool b => if b then "True" else "False"
  | .int n => toString n
  | .str s => "'" ++ s ++ "'"
  | .list xs => "[" ++ pyReprList xs ++ "]"
  | .dict kvs => "\x7b" ++ pyReprPairs kvs ++ "\x7d"

def pyReprList : List PyJson → String
  | [] => ""
  | [x] => pyReprJ x
  | x :: rest => pyReprJ x ++ ", " ++ pyReprList rest

def pyReprPairs : List (String × PyJson) → String
  | [] => ""
  | [(k, v)] => "'" ++ k ++ "': " ++ pyReprJ v
  | (k, v) :: rest => "'" ++ k ++ "': " ++ pyReprJ v ++ ", " ++ pyReprPairs rest

end

/-- Errors raised by the match engine: hamcrest assertion failures, and the
uncaught Python exceptions its misuse can raise. -/
inductive PyErr where
  | assertionError
  | attributeError
  | typeError
  | keyError
  | indexError
deriving DecidableEq, Repr

/-- Concrete regex-match primitive for metacharacter-free patterns: CPython's
`re.compile(pat).match(s)` succeeds on a literal pattern iff `pat` is a
prefix of `s`.  Used to instantiate the abstract `rmatch` parameter. -/
def reMatchLit (pat s : String) : Bool :=
  pat.toList.isPrefixOf s.toList

/-- Concrete `re.compile(pat).search(s)` for metacharacter-free patterns:
the literal `pat` occurs somewhere in `s` (hamcrest's `matches_regexp`
uses `search`). -/
def reSearchLit (pat s : String) : Bool :=
  (s.toList.tails.any (fun t => pat.toList.isPrefixOf t))

/-- Keys of a decoded JSON object in insertion order. -/
def keysOf (kvs : List (String × PyJson)) : List String :=
  kvs.map Prod.fst

/-- Equality of `dict_keys` views: Python compares them as sets. -/
def keySetEq (a b : List String) : Bool :=
  a.all b.contains && b.all a.contains

/-- Dictionary lookup `kvs[k]` (first matching key). -/
def lookupJ (kvs : List (String × PyJson)) (k : String) : Option PyJson :=
  (kvs.find? (fun kv => kv.1 = k)).map Prod.snd

/-! ### `check_json` (shared.py lines 645-665)

The Python body is

    assert_that(response.keys(), equal_to(expected_response.keys()), ...)
    for key in response.keys():
        if isinstance(response[key], int):
            assert_that(response[key], expected_response[key], "Integers match")
        elif not isinstance(response[key], dict):
            assert_that(response[key], matches_regexp(expected_response[key]), ...)
        else:
            check_json(response[key], expected_response[key])

Two behaviours are replayed exactly:

* `response.keys()` on a non-mapping raises `AttributeError` before anything
  else runs (likewise `expected_response.keys()`);
* in the integer branch the second `assert_that` argument is not a hamcrest
  matcher, so hamcrest falls back to `_assert_bool(assertion=response[key],
  reason=expected_response[key])` — the assertion passes iff the actual
  value is truthy, and the expected value is never compared.

`rmatch` abstracts `matches_regexp(pattern).matches(item)` for string items
(`re.search` semantics); a non-string pattern or item raises `TypeError`. -/

mutual

def check_json (rmatch : String → String → Bool) : PyJson → PyJson → Except PyErr Unit
  | .dict akvs, .dict ekvs =>
    if keySetEq (keysOf akvs) (keysOf ekvs) then checkPairs rmatch akvs ekvs
    else .error .assertionError
  | _, _ => .error .attributeError

def checkPairs (rmatch : String → String → Bool) :
    List (String × PyJson) → List (String × PyJson) → Except PyErr Unit
  | [], _ => .ok ()
  | (k, v) :: rest, ekvs =>
    match lookupJ ekvs k with
    | none => .error .keyError
    | some ev =>
      match v with
      | .int n =>
        if n = 0 then .error .assertionError else checkPairs rmatch rest ekvs
      | .bool b =>
        if b then checkPairs rmatch rest ekvs else .error .assertionError
      | .str s =>
        match ev with
        | .str pat =>
          if rmatch pat s then checkPairs rmatch rest ekvs
          else .error .assertionError
        | _ => .error .typeError
      | .list _ => .error .typeError
      | .null => .error .typeError
      | .dict a2 =>
        match check_json rmatch (.dict a2) ev with
        | .ok _ => checkPairs rmatch rest ekvs
        | .error e => .error e

end

/-! ### `check_calls_in` (shared.py lines 565-603) -/

/-- Positional argument comparison of `check_calls_in` (lines 588-597): the
loop `for (i, expected_arg) in enumerate(result_json[2])` walks the ACTUAL
notification's arguments; `args[i]` indexes the expected pattern list, so a
longer actual list raises `IndexError`.  A mapping-valued expected element
is skipped (`continue`); otherwise `re.compile(str(args[i])).match(str(a))`
decides the position.  Returns the final `found` flag. -/
def argsMatch (rmatch : String → String → Bool) :
    List PyJson → List PyJson → Except PyErr Bool
  | [], _ => .ok true
  | _ :: _, [] => .error .indexError
  | a :: arest, ex :: erest =>
    if ex.isDict then argsMatch rmatch arest erest
    else if rmatch (pyStrJ ex) (pyStrJ a) then argsMatch rmatch arest erest
    else .ok false

/-- Extract the argument list of a notification `["call", fn, args, ...]`
for the given function name (the two `has_item` filters of
`check_calls_in`). -/
def notifArgs (fn : String) (x : PyJson) : Option (List PyJson) :=
  match x with
  | .list (.str tag :: .str g :: .list as2 :: _) =>
    if tag = "call" && g = fn then some as2 else none
  | _ => none

/-- Try each candidate notification in order until one matches. -/
def anyCallMatches (rmatch : String → String → Bool)
    (args : List PyJson) : List (List PyJson) → Except PyErr Bool
  | [] => .ok false
  | c :: rest =>
    match argsMatch rmatch c args with
    | .error e => .error e
    | .ok true => .ok true
    | .ok false => anyCallMatches rmatch args rest

/-- Model of `check_calls_in(results, function, args)` over already-parsed
results: filter to `"call"` notifications of `function`, then accept iff
some candidate's arguments match positionally. -/
def check_calls_in (rmatch : String → String → Bool)
    (results : List PyJson) (fn : String) (args : List PyJson) : Except PyErr Unit :=
  let cands := results.filterMap (notifArgs fn)
  if cands.isEmpty then .error .assertionError
  else
    match anyCallMatches rmatch args cands with
    | .error e => .error e
    | .ok true => .ok ()
    | .ok false => .error .assertionError

/-! ### `padre_not_running` (shared.py lines 760-779)

The polling loop only waits for the process's exit code to settle; the
decision is a pure function of the observed snapshot: the final exit code,
the tracked pid, the recorded descendant pids, and the live pid set
`psutil.pids()` read after the wait. -/

def padre_not_running (returncode : Option Int) (pid : Nat)
    (children : List Nat) (running : List Nat) : Except PyErr Unit :=
  if returncode ≠ some 0 then .error .assertionError
  else if running.contains pid then .error .assertionError
  else if children.any (fun c => running.contains c) then .error .assertionError
  else .ok ()

/-- Decidable equality for `Except`, needed so witnesses can be settled by
`decide` on concrete scanner and matcher runs. -/
instance {ε α : Type} [DecidableEq ε] [DecidableEq α] : DecidableEq (Except ε α) :=
  fun x y =>
    match x, y with
    | .ok a, .ok b =>
      if h : a = b then .isTrue (by rw [h]) else .isFalse (by simp [h])
    | .error a, .error b =>
      if h : a = b then .isTrue (by rw [h]) else .isFalse (by simp [h])
    | .ok _, .error _ => .isFalse (by simp)
    | .error _, .ok _ => .isFalse (by simp)

/-! ## Frame-decoder lemmas: whitespace and digit munching

The locality lemma `scan_append` below shows that appending bytes that start
with whitespace (or nothing) to a buffer never changes what one successful
`raw_decode` consumes.  These are its supporting facts about `takeWhile`
counts. -/

theorem twCount_le (p : Char → Bool) (l : List Char) : (l.takeWhile p).length ≤ l.length := by
  conv_rhs => rw [← List.takeWhile_append_dropWhile p l]
  rw [List.length_append]
  exact Nat.le_add_right _ _

theorem twCount_append_stop {p : Char → Bool} {l : List Char} (t : List Char)
    (h : (l.takeWhile p).length < l.length) :
    ((l ++ t).takeWhile p).length = (l.takeWhile p).length := by
  rw [List.takeWhile_append, if_neg (Nat.ne_of_lt h)]

theorem twCount_all_of_not_lt {p : Char → Bool} {l : List Char}
    (h : ¬ (l.takeWhile p).length < l.length) : l.takeWhile p = l :=
  (List.takeWhile_prefix p).eq_of_length
    (Nat.le_antisymm (twCount_le p l) (Nat.le_of_not_lt h))

theorem wsCount_le (l : List Char) : wsCount l ≤ l.length := twCount_le wsChar l

theorem dcount_le (l : List Char) : dcount l ≤ l.length := twCount_le Char.isDigit l

theorem wsChar_cases {c : Char} (h : wsChar c = true) :
    c = ' ' ∨ c = '\t' ∨ c = '\n' ∨ c = '\r' := by
  simp only [wsChar, Bool.or_eq_true, decide_eq_true_eq] at h
  tauto

theorem wsChar_not_digit {c : Char} (h : wsChar c = true) : c.isDigit = false := by
  rcases wsChar_cases h with rfl | rfl | rfl | rfl <;> decide

theorem wsChar_ne_of {c d : Char} (h : wsChar c = true) (hd : wsChar d = false) : c ≠ d := by
  intro he
  subst he
  rw [h] at hd
  cases hd

theorem safeT_dcount {t : List Char} (ht : safeT t = true) : dcount t = 0 := by
  cases t with
  | nil => rfl
  | cons c r =>
    have hc : wsChar c = true := ht
    simp [dcount, List.takeWhile_cons, wsChar_not_digit hc]

theorem safeT_head_ne {t : List Char} {c : Char} (ht : safeT t = true)
    (hc : wsChar c = false) : t.head? ≠ some c := by
  cases t with
  | nil => simp
  | cons a r =>
    have ha : wsChar a = true := ht
    simp only [List.head?_cons]
    intro he
    injection he with he2
    exact wsChar_ne_of ha hc he2

theorem dcount_append {l : List Char} (t : List Char) (ht : safeT t = true) :
    dcount (l ++ t) = dcount l := by
  by_cases h : (l.takeWhile Char.isDigit).length < l.length
  · exact twCount_append_stop t h
  · have hall := twCount_all_of_not_lt h
    unfold dcount
    rw [List.takeWhile_append_of_pos
      (fun a ha => List.takeWhile_eq_self_iff.mp hall a ha)]
    rw [List.length_append]
    have h0 : dcount t = 0 := safeT_dcount ht
    unfold dcount at h0
    rw [h0, hall]
    omega

theorem wsCount_append_stop {l : List Char} (t : List Char) (h : wsCount l < l.length) :
    wsCount (l ++ t) = wsCount l := twCount_append_stop t h

theorem wsCount_append_all {l : List Char} (t : List Char) (h : ∀ c ∈ l, wsChar c = true) :
    wsCount (l ++ t) = l.length + wsCount t := by
  unfold wsCount
  rw [List.takeWhile_append_of_pos h, List.length_append]

theorem wsCount_head_false {c : Char} (r : List Char) (h : wsChar c = false) :
    wsCount (c :: r) = 0 := by
  simp [wsCount, List.takeWhile_cons, h]

theorem drop_wsCount (l : List Char) : l.drop (wsCount l) = l.dropWhile wsChar := by
  calc l.drop (wsCount l)
      = (l.takeWhile wsChar ++ l.dropWhile wsChar).drop (wsCount l) := by
        rw [List.takeWhile_append_dropWhile]
    _ = l.dropWhile wsChar := List.drop_left' rfl

theorem wsCount_stable {l : List Char} (t : List Char) {c : Char}
    (h : (l.drop (wsCount l)).head? = some c) : wsCount (l ++ t) = wsCount l := by
  apply wsCount_append_stop
  by_contra hlt
  have hall := twCount_all_of_not_lt hlt
  rw [drop_wsCount] at h
  have hnil : l.dropWhile wsChar = [] :=
    List.dropWhile_eq_nil_iff.mpr (fun x hx => List.takeWhile_eq_self_iff.mp hall x hx)
  rw [hnil] at h
  cases h

theorem head_drop_wsCount_not_ws {l : List Char} {c : Char}
    (h : (l.drop (wsCount l)).head? = some c) : wsChar c = false := by
  rw [drop_wsCount] at h
  have hd := List.head?_dropWhile_not wsChar l
  rw [h] at hd
  exact hd

/-! ## Frame-decoder lemmas: literal constants -/

theorem takesLit_length_le {s lit : List Char} (h : takesLit s lit) :
    lit.length ≤ s.length := by
  unfold takesLit at h
  have hl := congrArg List.length h
  rw [List.length_take] at hl
  omega

theorem takesLit_append {s lit : List Char} (t : List Char) (ht : safeT t = true)
    (hlit : ∀ c ∈ lit, wsChar c = false) : takesLit (s ++ t) lit ↔ takesLit s lit := by
  constructor
  · intro h
    rcases le_or_lt lit.length s.length with hle | hlt
    · unfold takesLit at h ⊢
      rwa [List.take_append_of_le_length hle] at h
    · exfalso
      unfold takesLit at h
      rw [List.take_append_eq_append_take, List.take_of_length_le (Nat.le_of_lt hlt)] at h
      cases t with
      | nil =>
        have hlen := congrArg List.length h
        simp at hlen
        omega
      | cons c r =>
        have hpos : 0 < lit.length - s.length := Nat.sub_pos_of_lt hlt
        have hc : c ∈ lit := by
          rw [← h]
          apply List.mem_append_right
          obtain ⟨m, hm⟩ : ∃ m, lit.length - s.length = m + 1 :=
            ⟨lit.length - s.length - 1, by omega⟩
          rw [hm]
          simp [List.take]
        have h1 := hlit c hc
        have h2 : wsChar c = true := ht
        rw [h1] at h2
        cases h2
  · intro h
    unfold takesLit at h ⊢
    rw [List.take_append_of_le_length (takesLit_length_le h)]
    exact h

/-! ## Frame-decoder lemmas: string bodies -/

theorem scanStringBody_append (t : List Char) :
    ∀ (u : List Char) (m : Nat), scanStringBody u = .ok m →
      scanStringBody (u ++ t) = .ok m := by
  intro u
  induction u using scanStringBody.induct <;> intro m h <;>
    rw [scanStringBody.eq_def] at h <;>
    rw [scanStringBody.eq_def] <;>
    first
      | (simp_all [List.cons_append]; done)
      | (simp_all [List.cons_append]; split_ifs at h ⊢ <;> simp_all [List.cons_append])
      | (split_ifs at h ⊢ <;> simp_all [List.cons_append])

/-! ## Frame-decoder lemmas: numbers -/

theorem scanIntDigits_le : ∀ {l : List Char} {n : Nat},
    scanIntDigits l = some n → n ≤ l.length := by
  intro l n h
  cases l with
  | nil => simp [scanIntDigits] at h
  | cons c r =>
    have hd := dcount_le r
    simp only [scanIntDigits] at h
    split_ifs at h with h1 h2
    · injection h with h
      simp only [List.length_cons]
      omega
    · injection h with h
      simp only [List.length_cons]
      omega

theorem scanIntDigits_append {l : List Char} (t : List Char) (ht : safeT t = true) :
    ∀ {n : Nat}, scanIntDigits l = some n → scanIntDigits (l ++ t) = some n := by
  intro n h
  cases l with
  | nil => simp [scanIntDigits] at h
  | cons c r =>
    simp only [scanIntDigits, List.cons_append] at h ⊢
    split_ifs at h with h1 h2
    · rw [if_pos h1]
      exact h
    · rw [if_neg h1, if_pos h2, dcount_append t ht]
      exact h

theorem scanIntDigits_append_none {l : List Char} (t : List Char) (ht : safeT t = true)
    (h : scanIntDigits l = none) : scanIntDigits (l ++ t) = none := by
  cases l with
  | nil =>
    rw [List.nil_append]
    cases t with
    | nil => rfl
    | cons c r =>
      have hc : wsChar c = true := ht
      have hcd : ¬ (c.isDigit = true) := by simp [wsChar_not_digit hc]
      simp only [scanIntDigits]
      rw [if_neg (wsChar_ne_of hc (by decide)), if_neg hcd]
  | cons c r =>
    simp only [scanIntDigits, List.cons_append] at h ⊢
    split_ifs at h <;> simp_all

theorem scanIntPart_le : ∀ {l : List Char} {n : Nat},
    scanIntPart l = some n → n ≤ l.length := by
  intro l n h
  cases l with
  | nil => simp [scanIntPart] at h
  | cons c r =>
    simp only [scanIntPart] at h
    split_ifs at h with hc
    · cases hd : scanIntDigits r with
      | none => rw [hd] at h; cases h
      | some m =>
        rw [hd] at h
        have hm := scanIntDigits_le hd
        simp only [Option.some.injEq] at h
        simp only [List.length_cons]
        omega
    · exact scanIntDigits_le h

theorem scanIntPart_append {l : List Char} (t : List Char) (ht : safeT t = true) :
    ∀ {n : Nat}, scanIntPart l = some n → scanIntPart (l ++ t) = some n := by
  intro n h
  cases l with
  | nil => simp [scanIntPart] at h
  | cons c r =>
    simp only [scanIntPart, List.cons_append] at h ⊢
    split_ifs at h with hc
    · rw [if_pos hc]
      cases hd : scanIntDigits r with
      | none => rw [hd] at h; cases h
      | some m => rw [scanIntDigits_append t ht hd]; rw [hd] at h; exact h
    · rw [if_neg hc]
      exact scanIntDigits_append t ht h

theorem scanIntPart_append_none {l : List Char} (t : List Char) (ht : safeT t = true)
    (h : scanIntPart l = none) : scanIntPart (l ++ t) = none := by
  cases l with
  | nil =>
    rw [List.nil_append]
    cases t with
    | nil => rfl
    | cons c r =>
      have hc : wsChar c = true := ht
      have hcd : ¬ (c.isDigit = true) := by simp [wsChar_not_digit hc]
      simp only [scanIntPart]
      rw [if_neg (wsChar_ne_of hc (by decide))]
      simp only [scanIntDigits]
      rw [if_neg (wsChar_ne_of hc (by decide)), if_neg hcd]
  | cons c r =>
    simp only [scanIntPart, List.cons_append] at h ⊢
    split_ifs at h with hc
    · rw [if_pos hc]
      cases hd : scanIntDigits r with
      | none => rw [scanIntDigits_append_none t ht hd]
      | some m => rw [hd] at h; cases h
    · rw [if_neg hc]
      exact scanIntDigits_append_none t ht h

theorem scanFracLen_le (l : List Char) : scanFracLen l ≤ l.length := by
  cases l with
  | nil => simp [scanFracLen]
  | cons c r =>
    have hd := dcount_le r
    simp only [scanFracLen, List.length_cons]
    split_ifs <;> omega

theorem scanFracLen_append (l : List Char) (t : List Char) (ht : safeT t = true) :
    scanFracLen (l ++ t) = scanFracLen l := by
  cases l with
  | nil =>
    cases t with
    | nil => rfl
    | cons c r =>
      have hc : wsChar c = true := ht
      simp only [List.nil_append, scanFracLen]
      rw [if_neg (wsChar_ne_of hc (by decide))]
  | cons c r =>
    simp only [scanFracLen, List.cons_append]
    rw [dcount_append t ht]

theorem scanExpLen_le (l : List Char) : scanExpLen l ≤ l.length := by
  cases l with
  | nil => simp [scanExpLen]
  | cons c r =>
    simp only [scanExpLen, List.length_cons]
    split_ifs with h1
    · cases r with
      | nil => simp
      | cons c2 r2 =>
        have hd2 := dcount_le r2
        have hd := dcount_le (c2 :: r2)
        simp only [List.length_cons] at hd ⊢
        split_ifs <;> omega
    · omega

theorem ws_not_eE {c : Char} (hc : wsChar c = true) :
    ¬ ((c = 'e' || c = 'E') = true) := by
  rcases wsChar_cases hc with rfl | rfl | rfl | rfl <;> decide

theorem ws_not_pm {c : Char} (hc : wsChar c = true) :
    ¬ ((c = '+' || c = '-') = true) := by
  rcases wsChar_cases hc with rfl | rfl | rfl | rfl <;> decide

theorem scanExpLen_append (l : List Char) (t : List Char) (ht : safeT t = true) :
    scanExpLen (l ++ t) = scanExpLen l := by
  cases l with
  | nil =>
    rw [List.nil_append]
    cases t with
    | nil => rfl
    | cons c r =>
      have hc : wsChar c = true := ht
      simp only [scanExpLen]
      rw [if_neg (ws_not_eE hc)]
  | cons c r =>
    by_cases h1 : (c = 'e' || c = 'E') = true
    · cases r with
      | nil =>
        cases t with
        | nil => rfl
        | cons c2 r2 =>
          have hc2 : wsChar c2 = true := ht
          simp only [scanExpLen, List.cons_append, List.nil_append]
          rw [if_pos h1, if_pos h1]
          rw [if_neg (ws_not_pm hc2)]
          rw [show dcount (c2 :: r2) = 0 from safeT_dcount ht]
          simp
      | cons c2 r2 =>
        simp only [scanExpLen, List.cons_append]
        rw [if_pos h1, if_pos h1]
        by_cases h2 : (c2 = '+' || c2 = '-') = true
        · rw [if_pos h2, if_pos h2, dcount_append t ht]
        · rw [if_neg h2, if_neg h2]
          have hd2 : dcount (c2 :: (r2 ++ t)) = dcount (c2 :: r2) := by
            have h3 := dcount_append (l := c2 :: r2) t ht
            simpa using h3
          rw [hd2]
    · simp only [scanExpLen, List.cons_append]
      rw [if_neg h1, if_neg h1]

theorem scanNumber_le {l : List Char} {n : Nat} (h : scanNumber l = some n) :
    n ≤ l.length := by
  unfold scanNumber at h
  cases hi : scanIntPart l with
  | none => rw [hi] at h; cases h
  | some i =>
    rw [hi] at h
    simp only [Option.some.injEq] at h
    have h1 := scanIntPart_le hi
    have h2 := scanFracLen_le (l.drop i)
    have h3 := scanExpLen_le (l.drop (i + scanFracLen (l.drop i)))
    rw [List.length_drop] at h2 h3
    omega

theorem scanNumber_append {l : List Char} (t : List Char) (ht : safeT t = true)
    {n : Nat} (h : scanNumber l = some n) : scanNumber (l ++ t) = some n := by
  unfold scanNumber at h ⊢
  cases hi : scanIntPart l with
  | none => rw [hi] at h; cases h
  | some i =>
    rw [hi] at h
    rw [scanIntPart_append t ht hi]
    simp only [Option.some.injEq] at h ⊢
    have hile := scanIntPart_le hi
    rw [List.drop_append_of_le_length hile, scanFracLen_append _ t ht]
    have hfle := scanFracLen_le (l.drop i)
    rw [List.length_drop] at hfle
    rw [List.drop_append_of_le_length (by omega), scanExpLen_append _ t ht]
    exact h

theorem scanNumber_append_none {l : List Char} (t : List Char) (ht : safeT t = true)
    (h : scanNumber l = none) : scanNumber (l ++ t) = none := by
  unfold scanNumber at h ⊢
  cases hi : scanIntPart l with
  | none => rw [scanIntPart_append_none t ht hi]
  | some i => rw [hi] at h; cases h

theorem scanNumber_head {c : Char} {r : List Char} {n : Nat}
    (h : scanNumber (c :: r) = some n) : c.isDigit = true ∨ c = '-' := by
  unfold scanNumber at h
  cases hi : scanIntPart (c :: r) with
  | none => rw [hi] at h; cases h
  | some i =>
    simp only [scanIntPart] at hi
    split_ifs at hi with hc
    · exact .inr hc
    · simp only [scanIntDigits] at hi
      split_ifs at hi with h1 h2
      · subst h1; exact .inl (by decide)
      · exact .inl h2

/-! ## Scanner unfolding equations

Definitional equations exposing each mode's branch structure of `scan`,
used for controlled rewriting in the monotonicity and locality proofs. -/

theorem scan_zero (mode : ScanMode) (s : List Char) : scan 0 mode s = .error errFuel := rfl

theorem scan_value_nil (f : Nat) : scan (f + 1) .value [] = .error errExpectingValue := rfl

theorem scan_value_cons (f : Nat) (c : Char) (r : List Char) :
    scan (f + 1) .value (c :: r) =
      (if c = '"' then
        match scanStringBody r with
        | .ok n => .ok (n + 1)
        | .error e => .error e
      else if c = lbrace then
        match scan f .objFirst r with
        | .ok n => .ok (n + 1)
        | .error e => .error e
      else if c = '[' then
        match scan f .listFirst r with
        | .ok n => .ok (n + 1)
        | .error e => .error e
      else if takesLit (c :: r) litNull then .ok 4
      else if takesLit (c :: r) litTrue then .ok 4
      else if takesLit (c :: r) litFalse then .ok 5
      else
        match scanNumber (c :: r) with
        | some n => .ok n
        | none =>
          if takesLit (c :: r) litNaN then .ok 3
          else if takesLit (c :: r) litInf then .ok 8
          else if takesLit (c :: r) litNegInf then .ok 9
          else .error errExpectingValue) := rfl

theorem scan_listFirst_eq (f : Nat) (s : List Char) :
    scan (f + 1) .listFirst s =
      (if (s.drop (wsCount s)).head? = some ']' then .ok (wsCount s + 1)
      else
        match scan f .listElems (s.drop (wsCount s)) with
        | .ok n => .ok (wsCount s + n)
        | .error e => .error e) := rfl

theorem scan_listElems_eq (f : Nat) (s : List Char) :
    scan (f + 1) .listElems s =
      (match scan f .value s with
      | .error e => .error e
      | .ok n =>
        match (s.drop (n + wsCount (s.drop n))).head? with
        | some c =>
          if c = ']' then .ok (n + wsCount (s.drop n) + 1)
          else if c = ',' then
            match scan f .listElems
                ((s.drop (n + wsCount (s.drop n) + 1)).drop
                  (wsCount (s.drop (n + wsCount (s.drop n) + 1)))) with
            | .ok m =>
              .ok (n + wsCount (s.drop n) + 1 +
                wsCount (s.drop (n + wsCount (s.drop n) + 1)) + m)
            | .error e => .error e
          else .error errComma
        | none => .error errComma) := rfl

theorem scan_objFirst_eq (f : Nat) (s : List Char) :
    scan (f + 1) .objFirst s =
      (match (s.drop (wsCount s)).head? with
      | some c =>
        if c = rbrace then .ok (wsCount s + 1)
        else if c = '"' then
          match scan f .objElems (s.drop (wsCount s + 1)) with
          | .ok n => .ok (wsCount s + 1 + n)
          | .error e => .error e
        else .error errPropName
      | none => .error errPropName) := rfl

theorem scan_objElems_eq (f : Nat) (s : List Char) :
    scan (f + 1) .objElems s =
      (match scanStringBody s with
      | .error e => .error e
      | .ok k =>
        match (s.drop (k + wsCount (s.drop k))).head? with
        | some c =>
          if c = ':' then
            match scan f .value
                ((s.drop (k + wsCount (s.drop k) + 1)).drop
                  (wsCount (s.drop (k + wsCount (s.drop k) + 1)))) with
            | .error e => .error e
            | .ok n =>
              match (s.drop (k + wsCount (s.drop k) + 1 +
                  wsCount (s.drop (k + wsCount (s.drop k) + 1)) + n +
                  wsCount (s.drop (k + wsCount (s.drop k) + 1 +
                    wsCount (s.drop (k + wsCount (s.drop k) + 1)) + n)))).head? with
              | some c2 =>
                if c2 = rbrace then
                  .ok (k + wsCount (s.drop k) + 1 +
                    wsCount (s.drop (k + wsCount (s.drop k) + 1)) + n +
                    wsCount (s.drop (k + wsCount (s.drop k) + 1 +
                      wsCount (s.drop (k + wsCount (s.drop k) + 1)) + n)) + 1)
                else if c2 = ',' then
                  match ((s.drop (k + wsCount (s.drop k) + 1 +
                      wsCount (s.drop (k + wsCount (s.drop k) + 1)) + n +
                      wsCount (s.drop (k + wsCount (s.drop k) + 1 +
                        wsCount (s.drop (k + wsCount (s.drop k) + 1)) + n)) + 1)).drop
                    (wsCount (s.drop (k + wsCount (s.drop k) + 1 +
                      wsCount (s.drop (k + wsCount (s.drop k) + 1)) + n +
                      wsCount (s.drop (k + wsCount (s.drop k) + 1 +
                        wsCount (s.drop (k + wsCount (s.drop k) + 1)) + n)) + 1)))).head? with
                  | some c3 =>
                    if c3 = '"' then
                      match scan f .objElems
                          ((s.drop (k + wsCount (s.drop k) + 1 +
                            wsCount (s.drop (k + wsCount (s.drop k) + 1)) + n +
                            wsCount (s.drop (k + wsCount (s.drop k) + 1 +
                              wsCount (s.drop (k + wsCount (s.drop k) + 1)) + n)) + 1)).drop
                            (wsCount (s.drop (k + wsCount (s.drop k) + 1 +
                              wsCount (s.drop (k + wsCount (s.drop k) + 1)) + n +
                              wsCount (s.drop (k + wsCount (s.drop k) + 1 +
                                wsCount (s.drop (k + wsCount (s.drop k) + 1)) + n)) + 1)) + 1)) with
                      | .ok m =>
                        .ok (k + wsCount (s.drop k) + 1 +
                          wsCount (s.drop (k + wsCount (s.drop k) + 1)) + n +
                          wsCount (s.drop (k + wsCount (s.drop k) + 1 +
                            wsCount (s.drop (k + wsCount (s.drop k) + 1)) + n)) + 1 +
                          wsCount (s.drop (k + wsCount (s.drop k) + 1 +
                            wsCount (s.drop (k + wsCount (s.drop k) + 1)) + n +
                            wsCount (s.drop (k + wsCount (s.drop k) + 1 +
                              wsCount (s.drop (k + wsCount (s.drop k) + 1)) + n)) + 1)) + 1 + m)
                      | .error e => .error e
                    else .error errPropName
                  | none => .error errPropName
                else .error errComma
              | none => .error errComma
          else .error errColon
        | none => .error errColon) := rfl

/-! ## Scanner monotonicity in fuel -/

/-- One successful scan is preserved by one more unit of fuel. -/
theorem scan_succ : ∀ (fuel : Nat) (mode : ScanMode) (s : List Char) (n : Nat),
    scan fuel mode s = .ok n → scan (fuel + 1) mode s = .ok n := by
  intro fuel
  induction fuel with
  | zero =>
    intro mode s n h
    rw [scan_zero] at h
    cases h
  | succ f ih =>
    intro mode s n h
    cases mode with
    | value =>
      cases s with
      | nil => rw [scan_value_nil] at h; cases h
      | cons c r =>
        rw [scan_value_cons] at h
        rw [scan_value_cons]
        by_cases hq : c = '"'
        · rw [if_pos hq] at h ⊢; exact h
        · rw [if_neg hq] at h ⊢
          by_cases hb : c = lbrace
          · rw [if_pos hb] at h ⊢
            cases hv : scan f .objFirst r with
            | ok k => rw [hv] at h; rw [ih .objFirst r k hv]; exact h
            | error e => rw [hv] at h; exact absurd h (by simp)
          · rw [if_neg hb] at h ⊢
            by_cases hk : c = '['
            · rw [if_pos hk] at h ⊢
              cases hv : scan f .listFirst r with
              | ok k => rw [hv] at h; rw [ih .listFirst r k hv]; exact h
              | error e => rw [hv] at h; exact absurd h (by simp)
            · rw [if_neg hk] at h ⊢
              exact h
    | listFirst =>
      rw [scan_listFirst_eq] at h
      rw [scan_listFirst_eq]
      by_cases hbr : (s.drop (wsCount s)).head? = some ']'
      · rw [if_pos hbr] at h ⊢; exact h
      · rw [if_neg hbr] at h ⊢
        cases hv : scan f .listElems (s.drop (wsCount s)) with
        | ok k => rw [hv] at h; rw [ih .listElems _ k hv]; exact h
        | error e => rw [hv] at h; exact absurd h (by simp)
    | listElems =>
      rw [scan_listElems_eq] at h
      rw [scan_listElems_eq]
      cases hv : scan f .value s with
      | error e => rw [hv] at h; exact absurd h (by simp)
      | ok k =>
        rw [hv] at h
        rw [ih .value s k hv]
        dsimp only at h ⊢
        cases hhd : (s.drop (k + wsCount (s.drop k))).head? with
        | none => rw [hhd] at h; simp at h
        | some c =>
          rw [hhd] at h
          dsimp only at h ⊢
          by_cases hc1 : c = ']'
          · rw [if_pos hc1] at h ⊢; exact h
          · rw [if_neg hc1] at h ⊢
            by_cases hc2 : c = ','
            · rw [if_pos hc2] at h ⊢
              cases hv2 : scan f .listElems
                  ((s.drop (k + wsCount (s.drop k) + 1)).drop
                    (wsCount (s.drop (k + wsCount (s.drop k) + 1)))) with
              | ok m => rw [hv2] at h; rw [ih .listElems _ m hv2]; exact h
              | error e => rw [hv2] at h; exact absurd h (by simp)
            · rw [if_neg hc2] at h ⊢; exact h
    | objFirst =>
      rw [scan_objFirst_eq] at h
      rw [scan_objFirst_eq]
      cases hhd : (s.drop (wsCount s)).head? with
      | none => rw [hhd] at h; simp at h
      | some c =>
        rw [hhd] at h
        dsimp only at h ⊢
        by_cases hc1 : c = rbrace
        · rw [if_pos hc1] at h ⊢; exact h
        · rw [if_neg hc1] at h ⊢
          by_cases hc2 : c = '"'
          · rw [if_pos hc2] at h ⊢
            cases hv : scan f .objElems (s.drop (wsCount s + 1)) with
            | ok k => rw [hv] at h; rw [ih .objElems _ k hv]; exact h
            | error e => rw [hv] at h; exact absurd h (by simp)
          · rw [if_neg hc2] at h ⊢; exact h
    | objElems =>
      rw [scan_objElems_eq] at h
      rw [scan_objElems_eq]
      cases hk : scanStringBody s with
      | error e => rw [hk] at h; simp at h
      | ok k =>
        rw [hk] at h
        dsimp only at h ⊢
        cases hhd : (s.drop (k + wsCount (s.drop k))).head? with
        | none => rw [hhd] at h; simp at h
        | some c =>
          rw [hhd] at h
          dsimp only at h ⊢
          by_cases hc1 : c = ':'
          · rw [if_pos hc1] at h ⊢
            cases hv : scan f .value
                ((s.drop (k + wsCount (s.drop k) + 1)).drop
                  (wsCount (s.drop (k + wsCount (s.drop k) + 1)))) with
            | error e => rw [hv] at h; exact absurd h (by simp)
            | ok m =>
              rw [hv] at h
              rw [ih .value _ m hv]
              dsimp only at h ⊢
              set p2 := k + wsCount (s.drop k) + 1 +
                wsCount (s.drop (k + wsCount (s.drop k) + 1)) + m with hp2
              set p3 := p2 + wsCount (s.drop p2) with hp3
              cases hhd2 : (s.drop p3).head? with
              | none => rw [hhd2] at h; simp at h
              | some c2 =>
                rw [hhd2] at h
                dsimp only at h ⊢
                by_cases hc3 : c2 = rbrace
                · rw [if_pos hc3] at h ⊢; exact h
                · rw [if_neg hc3] at h ⊢
                  by_cases hc4 : c2 = ','
                  · rw [if_pos hc4] at h ⊢
                    cases hhd3 : ((s.drop (p3 + 1)).drop
                        (wsCount (s.drop (p3 + 1)))).head? with
                    | none => rw [hhd3] at h; simp at h
                    | some c3 =>
                      rw [hhd3] at h
                      dsimp only at h ⊢
                      by_cases hc5 : c3 = '"'
                      · rw [if_pos hc5] at h ⊢
                        cases hv2 : scan f .objElems
                            ((s.drop (p3 + 1)).drop
                              (wsCount (s.drop (p3 + 1)) + 1)) with
                        | ok m2 => rw [hv2] at h; rw [ih .objElems _ m2 hv2]; exact h
                        | error e => rw [hv2] at h; exact absurd h (by simp)
                      · rw [if_neg hc5] at h ⊢; exact h
                  · rw [if_neg hc4] at h ⊢; exact h
          · rw [if_neg hc1] at h ⊢; exact h

/-- Fuel monotonicity: a successful scan stays successful with more fuel. -/
theorem scan_mono {f g : Nat} (hfg : f ≤ g) (mode : ScanMode) (s : List Char) (n : Nat)
    (h : scan f mode s = .ok n) : scan g mode s = .ok n := by
  induction g, hfg using Nat.le_induction with
  | base => exact h
  | succ g hg ihg => exact scan_succ g mode s n ihg

/-! ## Scanner consumption bounds -/

theorem scanStringBody_le : ∀ (u : List Char) (m : Nat),
    scanStringBody u = .ok m → m ≤ u.length := by
  intro u
  induction u using scanStringBody.induct <;> intro m h <;>
    rw [scanStringBody.eq_def] at h <;>
    first
      | (simp_all; done)
      | (simp_all; omega)
      | (simp_all; split_ifs at h <;> simp_all <;> omega)
      | (split_ifs at h <;> simp_all <;> omega)

theorem scan_value_nil_err (f : Nat) (n : Nat) : scan f .value [] ≠ .ok n := by
  cases f with
  | zero => rw [scan_zero]; simp
  | succ f => rw [scan_value_nil]; simp

theorem scan_listElems_nil_err (f : Nat) (n : Nat) : scan f .listElems [] ≠ .ok n := by
  cases f with
  | zero => rw [scan_zero]; simp
  | succ f =>
    rw [scan_listElems_eq]
    cases hv : scan f .value [] with
    | error e => simp
    | ok k => exact absurd hv (scan_value_nil_err f k)

/-- A nonempty tail after dropping: the drop position is inside the list. -/
theorem drop_cons_lt {s : List Char} {w : Nat} {c : Char} {r : List Char}
    (h : s.drop w = c :: r) : w < s.length := by
  have hl := congrArg List.length h
  rw [List.length_drop] at hl
  simp at hl
  omega
/-! ## Scanner consumption bound and locality

A successful scan consumes at most the buffer; and appending bytes that
start with whitespace (or nothing) to a buffer never changes a successful
scan.  Together with fuel monotonicity these lift per-value validity to
concatenated buffers, giving the frame-decoder chain theorem. -/
theorem scan_le : ∀ (fuel : Nat) (mode : ScanMode) (s : List Char) (n : Nat),
    scan fuel mode s = .ok n → n ≤ s.length := by
  intro fuel
  induction fuel with
  | zero => intro mode s n h; rw [scan_zero] at h; cases h
  | succ f ih =>
    intro mode s n h
    cases mode with
    | value =>
      cases s with
      | nil => rw [scan_value_nil] at h; cases h
      | cons c r =>
        rw [scan_value_cons] at h
        simp only [List.length_cons]
        by_cases hq : c = '"'
        · rw [if_pos hq] at h
          cases hsb : scanStringBody r with
          | ok m =>
            rw [hsb] at h
            injection h with h
            have := scanStringBody_le r m hsb
            omega
          | error e => rw [hsb] at h; cases h
        · rw [if_neg hq] at h
          by_cases hb : c = lbrace
          · rw [if_pos hb] at h
            cases hv : scan f .objFirst r with
            | ok k =>
              rw [hv] at h
              injection h with h
              have := ih .objFirst r k hv
              omega
            | error e => rw [hv] at h; cases h
          · rw [if_neg hb] at h
            by_cases hk : c = '['
            · rw [if_pos hk] at h
              cases hv : scan f .listFirst r with
              | ok k =>
                rw [hv] at h
                injection h with h
                have := ih .listFirst r k hv
                omega
              | error e => rw [hv] at h; cases h
            · rw [if_neg hk] at h
              by_cases hnull : takesLit (c :: r) litNull
              · rw [if_pos hnull] at h
                injection h with h
                have := takesLit_length_le hnull
                simp [litNull] at this
                omega
              · rw [if_neg hnull] at h
                by_cases htrue : takesLit (c :: r) litTrue
                · rw [if_pos htrue] at h
                  injection h with h
                  have := takesLit_length_le htrue
                  simp [litTrue] at this
                  omega
                · rw [if_neg htrue] at h
                  by_cases hfalse : takesLit (c :: r) litFalse
                  · rw [if_pos hfalse] at h
                    injection h with h
                    have := takesLit_length_le hfalse
                    simp [litFalse] at this
                    omega
                  · rw [if_neg hfalse] at h
                    cases hnum : scanNumber (c :: r) with
                    | some m =>
                      rw [hnum] at h
                      injection h with h
                      have := scanNumber_le hnum
                      simp only [List.length_cons] at this
                      omega
                    | none =>
                      rw [hnum] at h
                      dsimp only at h
                      by_cases hnan : takesLit (c :: r) litNaN
                      · rw [if_pos hnan] at h
                        injection h with h
                        have := takesLit_length_le hnan
                        simp [litNaN] at this
                        omega
                      · rw [if_neg hnan] at h
                        by_cases hinf : takesLit (c :: r) litInf
                        · rw [if_pos hinf] at h
                          injection h with h
                          have := takesLit_length_le hinf
                          simp [litInf] at this
                          omega
                        · rw [if_neg hinf] at h
                          by_cases hninf : takesLit (c :: r) litNegInf
                          · rw [if_pos hninf] at h
                            injection h with h
                            have := takesLit_length_le hninf
                            simp [litNegInf, litInf] at this
                            omega
                          · rw [if_neg hninf] at h
                            cases h
    | listFirst =>
      rw [scan_listFirst_eq] at h
      have hwle := wsCount_le s
      by_cases hbr : (s.drop (wsCount s)).head? = some ']'
      · rw [if_pos hbr] at h
        injection h with h
        cases hdd : s.drop (wsCount s) with
        | nil => rw [hdd] at hbr; cases hbr
        | cons c0 r0 =>
          have := drop_cons_lt hdd
          omega
      · rw [if_neg hbr] at h
        cases hv : scan f .listElems (s.drop (wsCount s)) with
        | ok k =>
          rw [hv] at h
          injection h with h
          have hk := ih .listElems _ k hv
          rw [List.length_drop] at hk
          omega
        | error e => rw [hv] at h; cases h
    | listElems =>
      rw [scan_listElems_eq] at h
      cases hv : scan f .value s with
      | error e => rw [hv] at h; cases h
      | ok k =>
        rw [hv] at h
        dsimp only at h
        have hkle := ih .value s k hv
        have hwle := wsCount_le (s.drop k)
        rw [List.length_drop] at hwle
        cases hhd : (s.drop (k + wsCount (s.drop k))).head? with
        | none => rw [hhd] at h; simp at h
        | some c =>
          rw [hhd] at h
          dsimp only at h
          obtain ⟨c0, r0, hdd⟩ : ∃ c0 r0, s.drop (k + wsCount (s.drop k)) = c0 :: r0 := by
            cases hdd : s.drop (k + wsCount (s.drop k)) with
            | nil => rw [hdd] at hhd; cases hhd
            | cons c0 r0 => exact ⟨c0, r0, rfl⟩
          have hpos := drop_cons_lt hdd
          by_cases hc1 : c = ']'
          · rw [if_pos hc1] at h
            injection h with h
            omega
          · rw [if_neg hc1] at h
            by_cases hc2 : c = ','
            · rw [if_pos hc2] at h
              cases hv2 : scan f .listElems
                  ((s.drop (k + wsCount (s.drop k) + 1)).drop
                    (wsCount (s.drop (k + wsCount (s.drop k) + 1)))) with
              | ok m =>
                rw [hv2] at h
                injection h with h
                have hm := ih .listElems _ m hv2
                have hw2 := wsCount_le (s.drop (k + wsCount (s.drop k) + 1))
                rw [List.length_drop, List.length_drop] at hm
                rw [List.length_drop] at hw2
                omega
              | error e => rw [hv2] at h; cases h
            · rw [if_neg hc2] at h; cases h
    | objFirst =>
      rw [scan_objFirst_eq] at h
      have hwle := wsCount_le s
      cases hhd : (s.drop (wsCount s)).head? with
      | none => rw [hhd] at h; simp at h
      | some c =>
        rw [hhd] at h
        dsimp only at h
        obtain ⟨c0, r0, hdd⟩ : ∃ c0 r0, s.drop (wsCount s) = c0 :: r0 := by
          cases hdd : s.drop (wsCount s) with
          | nil => rw [hdd] at hhd; cases hhd
          | cons c0 r0 => exact ⟨c0, r0, rfl⟩
        have hpos := drop_cons_lt hdd
        by_cases hc1 : c = rbrace
        · rw [if_pos hc1] at h
          injection h with h
          omega
        · rw [if_neg hc1] at h
          by_cases hc2 : c = '"'
          · rw [if_pos hc2] at h
            cases hv : scan f .objElems (s.drop (wsCount s + 1)) with
            | ok k =>
              rw [hv] at h
              injection h with h
              have hk := ih .objElems _ k hv
              rw [List.length_drop] at hk
              omega
            | error e => rw [hv] at h; cases h
          · rw [if_neg hc2] at h; cases h
    | objElems =>
      rw [scan_objElems_eq] at h
      cases hk : scanStringBody s with
      | error e => rw [hk] at h; cases h
      | ok k =>
        rw [hk] at h
        dsimp only at h
        have hkle := scanStringBody_le s k hk
        have hw1 := wsCount_le (s.drop k)
        rw [List.length_drop] at hw1
        cases hhd : (s.drop (k + wsCount (s.drop k))).head? with
        | none => rw [hhd] at h; simp at h
        | some c =>
          rw [hhd] at h
          dsimp only at h
          obtain ⟨c0, r0, hdd⟩ : ∃ c0 r0, s.drop (k + wsCount (s.drop k)) = c0 :: r0 := by
            cases hdd : s.drop (k + wsCount (s.drop k)) with
            | nil => rw [hdd] at hhd; cases hhd
            | cons c0 r0 => exact ⟨c0, r0, rfl⟩
          have hpos := drop_cons_lt hdd
          by_cases hc1 : c = ':'
          · rw [if_pos hc1] at h
            cases hv : scan f .value
                ((s.drop (k + wsCount (s.drop k) + 1)).drop
                  (wsCount (s.drop (k + wsCount (s.drop k) + 1)))) with
            | error e => rw [hv] at h; cases h
            | ok m =>
              rw [hv] at h
              dsimp only at h
              have hm := ih .value _ m hv
              have hw2 := wsCount_le (s.drop (k + wsCount (s.drop k) + 1))
              rw [List.length_drop, List.length_drop] at hm
              rw [List.length_drop] at hw2
              set p2 := k + wsCount (s.drop k) + 1 +
                wsCount (s.drop (k + wsCount (s.drop k) + 1)) + m with hp2
              have hw3 := wsCount_le (s.drop p2)
              rw [List.length_drop] at hw3
              set p3 := p2 + wsCount (s.drop p2) with hp3
              cases hhd2 : (s.drop p3).head? with
              | none => rw [hhd2] at h; simp at h
              | some c2 =>
                rw [hhd2] at h
                dsimp only at h
                obtain ⟨c1, r1, hdd2⟩ : ∃ c1 r1, s.drop p3 = c1 :: r1 := by
                  cases hdd2 : s.drop p3 with
                  | nil => rw [hdd2] at hhd2; cases hhd2
                  | cons c1 r1 => exact ⟨c1, r1, rfl⟩
                have hpos2 := drop_cons_lt hdd2
                by_cases hc3 : c2 = rbrace
                · rw [if_pos hc3] at h
                  injection h with h
                  omega
                · rw [if_neg hc3] at h
                  by_cases hc4 : c2 = ','
                  · rw [if_pos hc4] at h
                    cases hhd3 : ((s.drop (p3 + 1)).drop
                        (wsCount (s.drop (p3 + 1)))).head? with
                    | none => rw [hhd3] at h; simp at h
                    | some c3 =>
                      rw [hhd3] at h
                      dsimp only at h
                      obtain ⟨c4, r4, hdd3⟩ : ∃ c4 r4,
                          (s.drop (p3 + 1)).drop (wsCount (s.drop (p3 + 1))) = c4 :: r4 := by
                        cases hdd3 : (s.drop (p3 + 1)).drop (wsCount (s.drop (p3 + 1))) with
                        | nil => rw [hdd3] at hhd3; cases hhd3
                        | cons c4 r4 => exact ⟨c4, r4, rfl⟩
                      have hpos3 := drop_cons_lt hdd3
                      rw [List.length_drop] at hpos3
                      by_cases hc5 : c3 = '"'
                      · rw [if_pos hc5] at h
                        cases hv2 : scan f .objElems
                            ((s.drop (p3 + 1)).drop
                              (wsCount (s.drop (p3 + 1)) + 1)) with
                        | ok m2 =>
                          rw [hv2] at h
                          injection h with h
                          have hm2 := ih .objElems _ m2 hv2
                          rw [List.length_drop, List.length_drop] at hm2
                          omega
                        | error e => rw [hv2] at h; cases h
                      · rw [if_neg hc5] at h; cases h
                  · rw [if_neg hc4] at h; cases h
          · rw [if_neg hc1] at h; cases h

theorem drop_add (s : List Char) (a b : Nat) : (s.drop a).drop b = s.drop (a + b) := by
  rw [List.drop_drop, Nat.add_comm]

theorem head_some_cons {l : List Char} {c : Char} (h : l.head? = some c) :
    ∃ r, l = c :: r := by
  cases l with
  | nil => cases h
  | cons a r =>
    simp only [List.head?_cons, Option.some.injEq] at h
    exact ⟨r, by rw [h]⟩

theorem head_append_cons (c : Char) (r u : List Char) : ((c :: r) ++ u).head? = some c := rfl

theorem scan_append {t : List Char} (ht : safeT t = true) :
    ∀ (fuel : Nat) (mode : ScanMode) (s : List Char) (n : Nat),
      scan fuel mode s = .ok n → scan fuel mode (s ++ t) = .ok n := by
  intro fuel
  induction fuel with
  | zero => intro mode s n h; rw [scan_zero] at h; cases h
  | succ f ih =>
    intro mode s n h
    cases mode with
    | value =>
      cases s with
      | nil => rw [scan_value_nil] at h; cases h
      | cons c r =>
        rw [scan_value_cons] at h
        rw [List.cons_append, scan_value_cons]
        by_cases hq : c = '"'
        · rw [if_pos hq] at h ⊢
          cases hsb : scanStringBody r with
          | ok m =>
            rw [hsb] at h
            rw [scanStringBody_append t r m hsb]
            exact h
          | error e => rw [hsb] at h; cases h
        · rw [if_neg hq] at h ⊢
          by_cases hb : c = lbrace
          · rw [if_pos hb] at h ⊢
            cases hv : scan f .objFirst r with
            | ok k =>
              rw [hv] at h
              rw [ih .objFirst r k hv]
              exact h
            | error e => rw [hv] at h; cases h
          · rw [if_neg hb] at h ⊢
            by_cases hk : c = '['
            · rw [if_pos hk] at h ⊢
              cases hv : scan f .listFirst r with
              | ok k =>
                rw [hv] at h
                rw [ih .listFirst r k hv]
                exact h
              | error e => rw [hv] at h; cases h
            · rw [if_neg hk] at h ⊢
              have hE1 : takesLit (c :: (r ++ t)) litNull ↔ takesLit (c :: r) litNull := by
                simpa [List.cons_append] using
                  @takesLit_append (c :: r) litNull t ht (by decide)
              have hE2 : takesLit (c :: (r ++ t)) litTrue ↔ takesLit (c :: r) litTrue := by
                simpa [List.cons_append] using
                  @takesLit_append (c :: r) litTrue t ht (by decide)
              have hE3 : takesLit (c :: (r ++ t)) litFalse ↔ takesLit (c :: r) litFalse := by
                simpa [List.cons_append] using
                  @takesLit_append (c :: r) litFalse t ht (by decide)
              have hE4 : takesLit (c :: (r ++ t)) litNaN ↔ takesLit (c :: r) litNaN := by
                simpa [List.cons_append] using
                  @takesLit_append (c :: r) litNaN t ht (by decide)
              have hE5 : takesLit (c :: (r ++ t)) litInf ↔ takesLit (c :: r) litInf := by
                simpa [List.cons_append] using
                  @takesLit_append (c :: r) litInf t ht (by decide)
              have hE6 : takesLit (c :: (r ++ t)) litNegInf ↔ takesLit (c :: r) litNegInf := by
                simpa [List.cons_append] using
                  @takesLit_append (c :: r) litNegInf t ht (by decide)
              by_cases hnull : takesLit (c :: r) litNull
              · rw [if_pos hnull] at h
                rw [if_pos (hE1.mpr hnull)]
                exact h
              · rw [if_neg hnull] at h
                rw [if_neg (fun hx => hnull (hE1.mp hx))]
                by_cases htr : takesLit (c :: r) litTrue
                · rw [if_pos htr] at h
                  rw [if_pos (hE2.mpr htr)]
                  exact h
                · rw [if_neg htr] at h
                  rw [if_neg (fun hx => htr (hE2.mp hx))]
                  by_cases hfa : takesLit (c :: r) litFalse
                  · rw [if_pos hfa] at h
                    rw [if_pos (hE3.mpr hfa)]
                    exact h
                  · rw [if_neg hfa] at h
                    rw [if_neg (fun hx => hfa (hE3.mp hx))]
                    cases hnum : scanNumber (c :: r) with
                    | some m =>
                      rw [hnum] at h
                      have hsome : scanNumber (c :: (r ++ t)) = some m := by
                        have := scanNumber_append t ht hnum
                        rwa [List.cons_append] at this
                      rw [hsome]
                      exact h
                    | none =>
                      rw [hnum] at h
                      dsimp only at h
                      have hnone : scanNumber (c :: (r ++ t)) = none := by
                        have := scanNumber_append_none t ht hnum
                        rwa [List.cons_append] at this
                      rw [hnone]
                      dsimp only
                      by_cases hn1 : takesLit (c :: r) litNaN
                      · rw [if_pos hn1] at h
                        rw [if_pos (hE4.mpr hn1)]
                        exact h
                      · rw [if_neg hn1] at h
                        rw [if_neg (fun hx => hn1 (hE4.mp hx))]
                        by_cases hn2 : takesLit (c :: r) litInf
                        · rw [if_pos hn2] at h
                          rw [if_pos (hE5.mpr hn2)]
                          exact h
                        · rw [if_neg hn2] at h
                          rw [if_neg (fun hx => hn2 (hE5.mp hx))]
                          by_cases hn3 : takesLit (c :: r) litNegInf
                          · rw [if_pos hn3] at h
                            rw [if_pos (hE6.mpr hn3)]
                            exact h
                          · rw [if_neg hn3] at h
                            cases h
    | listFirst =>
      rw [scan_listFirst_eq] at h
      rw [scan_listFirst_eq]
      have hwle := wsCount_le s
      by_cases hbr : (s.drop (wsCount s)).head? = some ']'
      · rw [if_pos hbr] at h
        obtain ⟨r0, hdd⟩ := head_some_cons hbr
        have hstb : wsCount (s ++ t) = wsCount s := wsCount_stable t hbr
        have hda : (s ++ t).drop (wsCount s) = s.drop (wsCount s) ++ t :=
          List.drop_append_of_le_length hwle
        rw [hstb, hda, hdd]
        rw [if_pos (head_append_cons ']' r0 t)]
        exact h
      · rw [if_neg hbr] at h
        cases hv : scan f .listElems (s.drop (wsCount s)) with
        | error e => rw [hv] at h; cases h
        | ok k =>
          rw [hv] at h
          obtain ⟨c0, r0, hdd⟩ : ∃ c0 r0, s.drop (wsCount s) = c0 :: r0 := by
            cases hdd : s.drop (wsCount s) with
            | nil => rw [hdd] at hv; exact absurd hv (scan_listElems_nil_err f k)
            | cons c0 r0 => exact ⟨c0, r0, rfl⟩
          have hstb : wsCount (s ++ t) = wsCount s := wsCount_stable t (by rw [hdd]; rfl)
          have hda : (s ++ t).drop (wsCount s) = s.drop (wsCount s) ++ t :=
            List.drop_append_of_le_length hwle
          rw [hstb, hda, hdd]
          rw [if_neg (by rw [hdd] at hbr; simpa using hbr)]
          rw [hdd] at hv
          rw [ih .listElems (c0 :: r0) k hv]
          exact h
    | listElems =>
      rw [scan_listElems_eq] at h
      rw [scan_listElems_eq]
      cases hv : scan f .value s with
      | error e => rw [hv] at h; cases h
      | ok k =>
        rw [hv] at h
        dsimp only at h
        rw [ih .value s k hv]
        dsimp only
        have hkle := scan_le f .value s k hv
        have hdka : (s ++ t).drop k = s.drop k ++ t := List.drop_append_of_le_length hkle
        cases hhd : (s.drop (k + wsCount (s.drop k))).head? with
        | none => rw [hhd] at h; cases h
        | some c =>
          rw [hhd] at h
          dsimp only at h
          obtain ⟨r0, hdd⟩ := head_some_cons hhd
          have hwstb : wsCount (s.drop k ++ t) = wsCount (s.drop k) :=
            wsCount_stable t (by rw [drop_add]; exact hhd)
          rw [hdka, hwstb]
          have hpos := drop_cons_lt hdd
          have hda2 : (s ++ t).drop (k + wsCount (s.drop k)) =
              s.drop (k + wsCount (s.drop k)) ++ t :=
            List.drop_append_of_le_length (Nat.le_of_lt hpos)
          rw [hda2, hdd, head_append_cons]
          dsimp only
          by_cases hc1 : c = ']'
          · rw [if_pos hc1] at h ⊢
            exact h
          · rw [if_neg hc1] at h ⊢
            by_cases hc2 : c = ','
            · rw [if_pos hc2] at h ⊢
              cases hv2 : scan f .listElems
                  ((s.drop (k + wsCount (s.drop k) + 1)).drop
                    (wsCount (s.drop (k + wsCount (s.drop k) + 1)))) with
              | error e => rw [hv2] at h; cases h
              | ok m =>
                rw [hv2] at h
                obtain ⟨c1, r1, hdd2⟩ : ∃ c1 r1,
                    (s.drop (k + wsCount (s.drop k) + 1)).drop
                      (wsCount (s.drop (k + wsCount (s.drop k) + 1))) = c1 :: r1 := by
                  cases hdd2 : (s.drop (k + wsCount (s.drop k) + 1)).drop
                      (wsCount (s.drop (k + wsCount (s.drop k) + 1))) with
                  | nil => rw [hdd2] at hv2; exact absurd hv2 (scan_listElems_nil_err f m)
                  | cons c1 r1 => exact ⟨c1, r1, rfl⟩
                have hda3 : (s ++ t).drop (k + wsCount (s.drop k) + 1) =
                    s.drop (k + wsCount (s.drop k) + 1) ++ t :=
                  List.drop_append_of_le_length (by omega)
                have hw2stb : wsCount (s.drop (k + wsCount (s.drop k) + 1) ++ t) =
                    wsCount (s.drop (k + wsCount (s.drop k) + 1)) :=
                  wsCount_stable t (by rw [hdd2]; rfl)
                have hw2le := wsCount_le (s.drop (k + wsCount (s.drop k) + 1))
                have hda4 : (s.drop (k + wsCount (s.drop k) + 1) ++ t).drop
                      (wsCount (s.drop (k + wsCount (s.drop k) + 1))) =
                    (s.drop (k + wsCount (s.drop k) + 1)).drop
                      (wsCount (s.drop (k + wsCount (s.drop k) + 1))) ++ t :=
                  List.drop_append_of_le_length hw2le
                rw [hda3, hw2stb, hda4, hdd2]
                rw [hdd2] at hv2
                rw [ih .listElems (c1 :: r1) m hv2]
                exact h
            · rw [if_neg hc2] at h
              cases h
    | objFirst =>
      rw [scan_objFirst_eq] at h
      rw [scan_objFirst_eq]
      have hwle := wsCount_le s
      cases hhd : (s.drop (wsCount s)).head? with
      | none => rw [hhd] at h; cases h
      | some c =>
        rw [hhd] at h
        dsimp only at h
        obtain ⟨r0, hdd⟩ := head_some_cons hhd
        have hstb : wsCount (s ++ t) = wsCount s := wsCount_stable t hhd
        have hda : (s ++ t).drop (wsCount s) = s.drop (wsCount s) ++ t :=
          List.drop_append_of_le_length hwle
        rw [hstb, hda, hdd, head_append_cons]
        dsimp only
        have hpos := drop_cons_lt hdd
        by_cases hc1 : c = rbrace
        · rw [if_pos hc1] at h ⊢
          exact h
        · rw [if_neg hc1] at h ⊢
          by_cases hc2 : c = '"'
          · rw [if_pos hc2] at h ⊢
            cases hv : scan f .objElems (s.drop (wsCount s + 1)) with
            | error e => rw [hv] at h; cases h
            | ok k =>
              rw [hv] at h
              have hda2 : (s ++ t).drop (wsCount s + 1) = s.drop (wsCount s + 1) ++ t :=
                List.drop_append_of_le_length (by omega)
              rw [hda2, ih .objElems (s.drop (wsCount s + 1)) k hv]
              exact h
          · rw [if_neg hc2] at h
            cases h
    | objElems =>
      rw [scan_objElems_eq] at h
      rw [scan_objElems_eq]
      cases hsb : scanStringBody s with
      | error e => rw [hsb] at h; cases h
      | ok k =>
        rw [hsb] at h
        dsimp only at h
        rw [scanStringBody_append t s k hsb]
        dsimp only
        have hkle := scanStringBody_le s k hsb
        have hda1 : (s ++ t).drop k = s.drop k ++ t := List.drop_append_of_le_length hkle
        rw [hda1]
        cases hhd : (s.drop (k + wsCount (s.drop k))).head? with
        | none => rw [hhd] at h; cases h
        | some c =>
          rw [hhd] at h
          dsimp only at h
          obtain ⟨r0, hdd⟩ := head_some_cons hhd
          have hw1stb : wsCount (s.drop k ++ t) = wsCount (s.drop k) :=
            wsCount_stable t (by rw [drop_add]; exact hhd)
          rw [hw1stb]
          have hpos1 := drop_cons_lt hdd
          have hda2 : (s ++ t).drop (k + wsCount (s.drop k)) =
              s.drop (k + wsCount (s.drop k)) ++ t :=
            List.drop_append_of_le_length (Nat.le_of_lt hpos1)
          rw [hda2, hdd, head_append_cons]
          dsimp only
          by_cases hc1 : c = ':'
          · rw [if_pos hc1] at h ⊢
            cases hv : scan f .value
                ((s.drop (k + wsCount (s.drop k) + 1)).drop
                  (wsCount (s.drop (k + wsCount (s.drop k) + 1)))) with
            | error e => rw [hv] at h; cases h
            | ok m =>
              rw [hv] at h
              dsimp only at h
              obtain ⟨c1, r1, hdd2⟩ : ∃ c1 r1,
                  (s.drop (k + wsCount (s.drop k) + 1)).drop
                    (wsCount (s.drop (k + wsCount (s.drop k) + 1))) = c1 :: r1 := by
                cases hdd2 : (s.drop (k + wsCount (s.drop k) + 1)).drop
                    (wsCount (s.drop (k + wsCount (s.drop k) + 1))) with
                | nil => rw [hdd2] at hv; exact absurd hv (scan_value_nil_err f m)
                | cons c1 r1 => exact ⟨c1, r1, rfl⟩
              have hda3 : (s ++ t).drop (k + wsCount (s.drop k) + 1) =
                  s.drop (k + wsCount (s.drop k) + 1) ++ t :=
                List.drop_append_of_le_length (by omega)
              have hw2stb : wsCount (s.drop (k + wsCount (s.drop k) + 1) ++ t) =
                  wsCount (s.drop (k + wsCount (s.drop k) + 1)) :=
                wsCount_stable t (by rw [hdd2]; rfl)
              have hw2le := wsCount_le (s.drop (k + wsCount (s.drop k) + 1))
              rw [List.length_drop] at hw2le
              have hda4 : (s.drop (k + wsCount (s.drop k) + 1) ++ t).drop
                    (wsCount (s.drop (k + wsCount (s.drop k) + 1))) =
                  (s.drop (k + wsCount (s.drop k) + 1)).drop
                    (wsCount (s.drop (k + wsCount (s.drop k) + 1))) ++ t :=
                List.drop_append_of_le_length (wsCount_le _)
              rw [hda3, hw2stb, hda4]
              rw [ih .value _ m hv]
              dsimp only
              have hmle := scan_le f .value _ m hv
              rw [List.length_drop, List.length_drop] at hmle
              set p2 := k + wsCount (s.drop k) + 1 +
                wsCount (s.drop (k + wsCount (s.drop k) + 1)) + m with hp2
              have hp2le : p2 ≤ s.length := by omega
              have hda5 : (s ++ t).drop p2 = s.drop p2 ++ t :=
                List.drop_append_of_le_length hp2le
              rw [hda5]
              cases hhd2 : (s.drop (p2 + wsCount (s.drop p2))).head? with
              | none => rw [hhd2] at h; cases h
              | some c2 =>
                rw [hhd2] at h
                dsimp only at h
                obtain ⟨r2, hdd3⟩ := head_some_cons hhd2
                have hw3stb : wsCount (s.drop p2 ++ t) = wsCount (s.drop p2) :=
                  wsCount_stable t (by rw [drop_add]; exact hhd2)
                rw [hw3stb]
                set p3 := p2 + wsCount (s.drop p2) with hp3
                have hpos3 := drop_cons_lt hdd3
                have hda6 : (s ++ t).drop p3 = s.drop p3 ++ t :=
                  List.drop_append_of_le_length (Nat.le_of_lt hpos3)
                rw [hda6, hdd3, head_append_cons]
                dsimp only
                by_cases hc2 : c2 = rbrace
                · rw [if_pos hc2] at h ⊢
                  exact h
                · rw [if_neg hc2] at h ⊢
                  by_cases hc3 : c2 = ','
                  · rw [if_pos hc3] at h ⊢
                    cases hhd3 : ((s.drop (p3 + 1)).drop
                        (wsCount (s.drop (p3 + 1)))).head? with
                    | none => rw [hhd3] at h; cases h
                    | some c3 =>
                      rw [hhd3] at h
                      dsimp only at h
                      obtain ⟨r3, hdd4⟩ := head_some_cons hhd3
                      have hda7 : (s ++ t).drop (p3 + 1) = s.drop (p3 + 1) ++ t :=
                        List.drop_append_of_le_length (by omega)
                      have hw4stb : wsCount (s.drop (p3 + 1) ++ t) =
                          wsCount (s.drop (p3 + 1)) :=
                        wsCount_stable t hhd3
                      have hda8 : (s.drop (p3 + 1) ++ t).drop
                            (wsCount (s.drop (p3 + 1))) =
                          (s.drop (p3 + 1)).drop (wsCount (s.drop (p3 + 1))) ++ t :=
                        List.drop_append_of_le_length (wsCount_le _)
                      rw [hda7, hw4stb, hda8, hdd4, head_append_cons]
                      dsimp only
                      by_cases hc4 : c3 = '"'
                      · rw [if_pos hc4] at h ⊢
                        cases hv2 : scan f .objElems
                            ((s.drop (p3 + 1)).drop
                              (wsCount (s.drop (p3 + 1)) + 1)) with
                        | error e => rw [hv2] at h; cases h
                        | ok m2 =>
                          rw [hv2] at h
                          have hpos4 := drop_cons_lt hdd4
                          have hda9 : (s.drop (p3 + 1) ++ t).drop
                                (wsCount (s.drop (p3 + 1)) + 1) =
                              (s.drop (p3 + 1)).drop
                                (wsCount (s.drop (p3 + 1)) + 1) ++ t :=
                            List.drop_append_of_le_length (by omega)
                          rw [hda9, ih .objElems _ m2 hv2]
                          exact h
                      · rw [if_neg hc4] at h
                        cases h
                  · rw [if_neg hc3] at h
                    cases h
          · rw [if_neg hc1] at h
            cases h

theorem takesLit_head {c d : Char} {r lr : List Char}
    (h : takesLit (c :: r) (d :: lr)) : c = d := by
  unfold takesLit at h
  simp only [List.length_cons, List.take_succ_cons, List.cons.injEq] at h
  exact h.1

theorem scan_value_head_not_ws {f : Nat} {c : Char} {r : List Char} {n : Nat}
    (h : scan (f + 1) .value (c :: r) = .ok n) : wsChar c = false := by
  rw [scan_value_cons] at h
  by_cases hq : c = '"'
  · subst hq; decide
  · rw [if_neg hq] at h
    by_cases hb : c = lbrace
    · subst hb; decide
    · rw [if_neg hb] at h
      by_cases hk : c = '['
      · subst hk; decide
      · rw [if_neg hk] at h
        by_cases hnull : takesLit (c :: r) litNull
        · have hc := takesLit_head (show takesLit (c :: r) ('n' :: ['u', 'l', 'l']) from hnull)
          subst hc; decide
        · rw [if_neg hnull] at h
          by_cases htr : takesLit (c :: r) litTrue
          · have hc := takesLit_head (show takesLit (c :: r) ('t' :: ['r', 'u', 'e']) from htr)
            subst hc; decide
          · rw [if_neg htr] at h
            by_cases hfa : takesLit (c :: r) litFalse
            · have hc := takesLit_head
                (show takesLit (c :: r) ('f' :: ['a', 'l', 's', 'e']) from hfa)
              subst hc; decide
            · rw [if_neg hfa] at h
              cases hnum : scanNumber (c :: r) with
              | some m =>
                rcases scanNumber_head hnum with hd | hm
                · cases hw : wsChar c
                  · rfl
                  · rw [wsChar_not_digit hw] at hd; cases hd
                · subst hm; decide
              | none =>
                rw [hnum] at h
                dsimp only at h
                by_cases hn1 : takesLit (c :: r) litNaN
                · have hc := takesLit_head (show takesLit (c :: r) ('N' :: ['a', 'N']) from hn1)
                  subst hc; decide
                · rw [if_neg hn1] at h
                  by_cases hn2 : takesLit (c :: r) litInf
                  · have hc := takesLit_head (show takesLit (c :: r)
                      ('I' :: ['n', 'f', 'i', 'n', 'i', 't', 'y']) from hn2)
                    subst hc; decide
                  · rw [if_neg hn2] at h
                    by_cases hn3 : takesLit (c :: r) litNegInf
                    · have hc := takesLit_head
                        (show takesLit (c :: r) ('-' :: litInf) from hn3)
                      subst hc; decide
                    · rw [if_neg hn3] at h
                      cases h

theorem ValidJson_ok {v : List Char} (hv : ValidJson v = true) :
    rawDecode v = .ok v.length := by
  unfold ValidJson at hv
  cases hr : rawDecode v with
  | ok n =>
    rw [hr] at hv
    dsimp only at hv
    simp only [beq_iff_eq] at hv
    rw [hv]
  | error e => rw [hr] at hv; cases hv

theorem ValidJson_cons {v : List Char} (hv : ValidJson v = true) :
    ∃ c r, v = c :: r ∧ wsChar c = false := by
  have hok := ValidJson_ok hv
  cases v with
  | nil => exact absurd hv (by decide)
  | cons c r =>
    refine ⟨c, r, rfl, ?_⟩
    unfold rawDecode at hok
    have hfe : 3 * (c :: r).length + 3 = (3 * (c :: r).length + 2) + 1 := rfl
    rw [hfe] at hok
    exact scan_value_head_not_ws hok

theorem rawDecode_append {v : List Char} (t : List Char) (ht : safeT t = true)
    (hv : ValidJson v = true) : rawDecode (v ++ t) = .ok v.length := by
  have hok := ValidJson_ok hv
  unfold rawDecode at hok ⊢
  have h1 := scan_append ht (3 * v.length + 3) .value v v.length hok
  have h2 : 3 * v.length + 3 ≤ 3 * (v ++ t).length + 3 := by
    rw [List.length_append]; omega
  exact scan_mono h2 .value (v ++ t) v.length h1

theorem wsCount_chain : ∀ {ps : List (List Char × List Char)},
    chainOk ps = true → wsCount (chain ps) = 0 := by
  intro ps hok
  cases ps with
  | nil => rfl
  | cons p rest =>
    obtain ⟨v, w⟩ := p
    simp only [chainOk, Bool.and_eq_true] at hok
    obtain ⟨⟨⟨hv, hw⟩, hsep⟩, hrest⟩ := hok
    obtain ⟨c, r, hvc, hcw⟩ := ValidJson_cons hv
    simp only [chain, hvc, List.cons_append]
    exact wsCount_head_false _ hcw

theorem chain_append : ∀ (a b : List (List Char × List Char)),
    chain (a ++ b) = chain a ++ chain b := by
  intro a b
  induction a with
  | nil => simp [chain]
  | cons p rest ih =>
    obtain ⟨v, w⟩ := p
    simp [chain, ih, List.append_assoc]

theorem chainOk_append : ∀ (ps1 ps2 : List (List Char × List Char)),
    chainOk (ps1 ++ ps2) = true → chainOk ps1 = true ∧ chainOk ps2 = true := by
  intro ps1
  induction ps1 with
  | nil => intro ps2 h; exact ⟨rfl, h⟩
  | cons p rest ih =>
    intro ps2 h
    obtain ⟨v, w⟩ := p
    simp only [List.cons_append, chainOk, Bool.and_eq_true] at h ⊢
    obtain ⟨⟨⟨hv, hw⟩, hsep⟩, htl⟩ := h
    obtain ⟨h1, h2⟩ := ih ps2 htl
    refine ⟨⟨⟨⟨hv, hw⟩, ?_⟩, h1⟩, h2⟩
    cases rest with
    | nil => simp
    | cons q qs => simpa using hsep

theorem decodeLoop_chain : ∀ (ps : List (List Char × List Char)) (fuel idx : Nat)
    (s : List Char), chainOk ps = true → s.drop idx = chain ps → idx ≤ s.length →
    s.length - idx < fuel → decodeLoop fuel s idx = .ok (ps.map Prod.fst) := by
  intro ps
  induction ps with
  | nil =>
    intro fuel idx s hok hdr hle hfu
    have hlen0 : s.length - idx = 0 := by
      have hl := congrArg List.length hdr
      simpa [chain] using hl
    have hidx : idx = s.length := by omega
    cases fuel with
    | zero => omega
    | succ f => simp [decodeLoop, hidx]
  | cons p rest ihp =>
    obtain ⟨v, w⟩ := p
    intro fuel idx s hok hdr hle hfu
    simp only [chainOk, Bool.and_eq_true] at hok
    obtain ⟨⟨⟨hv, hw⟩, hsep⟩, hrest⟩ := hok
    obtain ⟨c, r, hvc, hcw⟩ := ValidJson_cons hv
    have hsafe : safeT (w ++ chain rest) = true := by
      cases w with
      | nil =>
        cases rest with
        | nil => rfl
        | cons q qs => cases hsep
      | cons a wr =>
        have ha : wsChar a = true := by
          simp only [List.all_cons, Bool.and_eq_true] at hw
          exact hw.1
        exact ha
    have hchain : s.drop idx = v ++ (w ++ chain rest) := by
      rw [hdr]; simp [chain, List.append_assoc]
    have hrd : rawDecode (s.drop idx) = .ok v.length := by
      rw [hchain]; exact rawDecode_append _ hsafe hv
    have hvlen : s.length - idx = v.length + w.length + (chain rest).length := by
      have hl := congrArg List.length hchain
      simp [List.length_append] at hl
      omega
    have hvpos : 0 < v.length := by rw [hvc]; simp
    cases fuel with
    | zero => omega
    | succ f =>
      have hne : ¬ idx = s.length := by
        intro he
        rw [he, List.drop_length] at hchain
        rw [hvc] at hchain
        simp at hchain
      have hdrop2 : s.drop (idx + v.length) = w ++ chain rest := by
        calc s.drop (idx + v.length)
            = (s.drop idx).drop v.length := (drop_add s idx v.length).symm
          _ = (v ++ (w ++ chain rest)).drop v.length := by rw [hchain]
          _ = w ++ chain rest := List.drop_left _ _
      have hw' : ∀ x ∈ w, wsChar x = true := by simpa [List.all_eq_true] using hw
      have hwc : wsCount (s.drop (idx + v.length)) = w.length := by
        rw [hdrop2, wsCount_append_all (chain rest) hw', wsCount_chain hrest,
          Nat.add_zero]
      have htake : (s.drop idx).take v.length = v := by
        rw [hchain]; exact List.take_left _ _
      have hdr2 : s.drop (idx + v.length + w.length) = chain rest := by
        calc s.drop (idx + v.length + w.length)
            = (s.drop (idx + v.length)).drop w.length :=
              (drop_add s (idx + v.length) w.length).symm
          _ = (w ++ chain rest).drop w.length := by rw [hdrop2]
          _ = chain rest := List.drop_left _ _
      have hle2 : idx + v.length + w.length ≤ s.length := by omega
      have hfu2 : s.length - (idx + v.length + w.length) < f := by omega
      have hrec := ihp f (idx + v.length + w.length) s hrest hdr2 hle2 hfu2
      simp only [decodeLoop]
      rw [if_neg hne, hrd]
      dsimp only
      rw [hwc, hrec]
      dsimp only
      rw [htake]
      rfl

theorem do_read_chain (w0 : List Char) (ps : List (List Char × List Char))
    (hw0 : w0.all wsChar = true) (hok : chainOk ps = true) :
    do_read_from_padre (w0 ++ chain ps) = .ok (ps.map Prod.fst) := by
  unfold do_read_from_padre
  have hw0' : ∀ x ∈ w0, wsChar x = true := by simpa [List.all_eq_true] using hw0
  have hidx : wsCount (w0 ++ chain ps) = w0.length := by
    rw [wsCount_append_all (chain ps) hw0', wsCount_chain hok, Nat.add_zero]
  rw [hidx]
  exact decodeLoop_chain ps ((w0 ++ chain ps).length + 1) w0.length (w0 ++ chain ps) hok
    (List.drop_left _ _) (by rw [List.length_append]; omega) (by omega)

/-! ## Session-state lemmas -/

/-- Values and final state of `k` successive `request_counter` reads from an
arbitrary session state: the values are the `k` integers starting at the
current counter, the counter advances by `k`, and the stored last request
number is the final value returned. -/
theorem Padre.reads_spec (k : Nat) : ∀ (p : Padre),
    (p.reads k).1 = List.range' p.requestCounterF k ∧
    (p.reads k).2.requestCounterF = p.requestCounterF + k ∧
    (p.reads k).2.lastRequestNumberF =
      (if k = 0 then p.lastRequestNumberF else some (p.requestCounterF + k - 1)) := by
  induction k with
  | zero => intro p; simp [Padre.reads]
  | succ k ih =>
    intro p
    obtain ⟨h1, h2, h3⟩ :=
      ih { p with
           lastRequestNumberF := some p.requestCounterF
           requestCounterF := p.requestCounterF + 1 }
    refine ⟨?_, ?_, ?_⟩
    · simp only [Padre.reads, Padre.request_counter]
      rw [List.range'_succ]
      simpa using h1
    · simp only [Padre.reads, Padre.request_counter]
      rw [h2]
      show p.requestCounterF + 1 + k = p.requestCounterF + (k + 1)
      omega
    · simp only [Padre.reads, Padre.request_counter]
      rw [h3]
      rw [if_neg (Nat.succ_ne_zero k)]
      rcases Nat.eq_zero_or_pos k with hk | hk
      · subst hk
        show some p.requestCounterF = some (p.requestCounterF + 1 - 1)
        simp
      · have hk' : k ≠ 0 := Nat.pos_iff_ne_zero.mp hk
        rw [if_neg hk']
        show some (p.requestCounterF + 1 + k - 1) = some (p.requestCounterF + (k + 1) - 1)
        congr 1
        omega

/-- Once a nonzero port is cached, every further `port` read returns it and
leaves the state unchanged. -/
theorem Padre.portReads_cached : ∀ (l : List Nat) (p : Padre) (a : Nat),
    p.portF = some a → a ≠ 0 → p.portReads l = l.map (fun _ => a)
  | [], _, _, _, _ => rfl
  | b :: rest, p, a, hp, ha => by
    simp only [Padre.portReads, Padre.port, hp, if_neg ha, List.map_cons, List.cons.injEq]
    refine ⟨by simp, ?_⟩
    exact Padre.portReads_cached rest p a hp ha

/-! ## Match-engine lemmas -/

/-- Characterization of a successful positional comparison when the actual
argument list is no longer than the expected pattern list: every position
is accepted, where a mapping-valued expected element accepts anything and
any other expected element must regex-match the actual element's string
form. -/
theorem argsMatch_ok_true_iff (rm : String → String → Bool) :
    ∀ (actual expected : List PyJson), actual.length ≤ expected.length →
    (argsMatch rm actual expected = .ok true ↔
      ∀ p ∈ actual.zip expected, p.2.isDict = true ∨ rm (pyStrJ p.2) (pyStrJ p.1) = true)
  | [], expected, _ => by simp [argsMatch]
  | a :: arest, [], h => by simp at h
  | a :: arest, ex :: erest, h => by
    have ih := argsMatch_ok_true_iff rm arest erest (by simpa using h)
    by_cases hd : ex.isDict = true
    · simpa [argsMatch, hd] using ih
    · by_cases hr : rm (pyStrJ ex) (pyStrJ a) = true
      · simpa [argsMatch, hd, hr] using ih
      · simp [argsMatch, hd, hr]

/-- When the actual argument list is strictly longer than the expected
pattern list and every covered position is accepted, the loop walks off the
end of the pattern list and raises `IndexError`. -/
theorem argsMatch_overflow (rm : String → String → Bool) :
    ∀ (actual expected : List PyJson), expected.length < actual.length →
    (∀ p ∈ actual.zip expected, p.2.isDict = true ∨ rm (pyStrJ p.2) (pyStrJ p.1) = true) →
    argsMatch rm actual expected = .error .indexError
  | [], expected, h, _ => by simp at h
  | a :: arest, [], _, _ => by simp [argsMatch]
  | a :: arest, ex :: erest, h, hall => by
    have ih := argsMatch_overflow rm arest erest (by simpa using h)
      (fun p hp => hall p (by simp [hp]))
    by_cases hd : ex.isDict = true
    · simp [argsMatch, hd, ih]
    · have hr : rm (pyStrJ ex) (pyStrJ a) = true := by
        have := hall (a, ex) (by simp)
        simpa [hd] using this
      simp [argsMatch, hd, hr, ih]

/-! ## Claim C2 (code_bug) -/

/-- C2: the claim says integer-valued leaves of `check_json` are compared by
equality.  The code calls `assert_that(response[key], expected_response[key],
"Integers match")` without `equal_to`, so hamcrest falls back to a bare
truthiness assertion on the actual value and never compares the expected
one: actual `5` against expected `7` is accepted, while actual `0` against
the equal expected `0` is rejected. -/
theorem C2_integer_leaves_truthiness_bug :
    check_json (fun _ _ => false)
      (.dict [("status", .int 5)]) (.dict [("status", .int 7)]) = .ok () ∧
    check_json (fun _ _ => false)
      (.dict [("n", .int 0)]) (.dict [("n", .int 0)]) = .error .assertionError :=
  ⟨rfl, rfl⟩

/-! ## Claim C3 (confirmed) -/

/-- C3: reading the request counter `K` times on a fresh session returns
exactly `1, 2, ..., K` in order, and after any prefix of `j > 0` reads the
stored last request number equals `j`, the value most recently returned. -/
theorem C3_request_counter_values (e : String) (d t : Option String) (K j : Nat)
    (hj0 : 0 < j) (hjK : j ≤ K) :
    ((Padre.init e d t).reads K).1 = List.range' 1 K ∧
    ((Padre.init e d t).reads j).2.last_request_number = some j := by
  have hrange : List.range' (Padre.init e d t).requestCounterF K = List.range' 1 K := rfl
  refine ⟨hrange ▸ (Padre.reads_spec K (Padre.init e d t)).1, ?_⟩
  have h := (Padre.reads_spec j (Padre.init e d t)).2.2
  have hj' : j ≠ 0 := Nat.pos_iff_ne_zero.mp hj0
  rw [Padre.last_request_number, h, if_neg hj']
  show some (1 + j - 1) = some j
  congr 1
  omega

/-- C3 witness: the statement at the concrete inputs `K = 3`, `j = 2`. -/
theorem C3_request_counter_values_witness :
    ((Padre.init "test_prog" none none).reads 3).1 = List.range' 1 3 ∧
    ((Padre.init "test_prog" none none).reads 2).2.last_request_number = some 2 :=
  C3_request_counter_values "test_prog" none none 3 2 (by decide) (by decide)

/-! ## Claim C5 (corrected) -/

/-- C5 counterexample: the claim says querying the last request number before
any request fails with `NoRequestIssued`.  On a fresh session the code's
`last_request_number` returns the ordinary value `None` without raising,
unlike the spec-side `lastRequestNumberSpec`, which does fail. -/
theorem C5_returns_none_not_error_cex :
    (Padre.init "test_prog" none none).last_request_number = none ∧
    lastRequestNumberSpec (Padre.init "test_prog" none none) = .error "NoRequestIssued" :=
  ⟨rfl, rfl⟩

/-- C5 amended: querying `last_request_number` before any request number has
been issued returns `None` (it does not fail); the missing-request case only
surfaces later, when a response lookup keyed on `None` matches nothing. -/
theorem C5_last_request_number_initial_none (e : String) (d t : Option String) :
    (Padre.init e d t).last_request_number = none :=
  rfl

/-! ## Claim C6 (confirmed) -/

/-- C6: in the positional comparison of `check_calls_in`, when the actual
argument list is within the expected pattern list's length, the match
succeeds exactly when every position is accepted — a mapping-valued
expected element is accepted unconditionally, regardless of the actual
value at that position, and any other expected element is regex-matched
against the string form of the actual element. -/
theorem C6_mapping_args_unconditional (rm : String → String → Bool)
    (actual expected : List PyJson) (h : actual.length ≤ expected.length) :
    argsMatch rm actual expected = .ok true ↔
      ∀ p ∈ actual.zip expected, p.2.isDict = true ∨ rm (pyStrJ p.2) (pyStrJ p.1) = true :=
  argsMatch_ok_true_iff rm actual expected h

/-- C6 witness: with a never-matching regex primitive, a mapping-valued
expected element still accepts an integer actual argument. -/
theorem C6_mapping_args_unconditional_witness :
    ([PyJson.int 1].length ≤ [PyJson.dict [("a", PyJson.int 2)]].length) ∧
    (argsMatch (fun _ _ => false) [PyJson.int 1] [PyJson.dict [("a", PyJson.int 2)]] = .ok true ↔
      ∀ p ∈ ([PyJson.int 1].zip [PyJson.dict [("a", PyJson.int 2)]]),
        p.2.isDict = true ∨ (fun _ _ => false) (pyStrJ p.2) (pyStrJ p.1) = true) :=
  ⟨by decide, C6_mapping_args_unconditional (fun _ _ => false) _ _ (by decide)⟩

/-! ## Claim C7 (confirmed) -/

/-- C7: the post-termination check succeeds exactly when the observed exit
code is `0`, the tracked pid is absent from the live pid set, and every
previously observed descendant pid is absent too; failing any of the three
is reported as a failure. -/
theorem C7_padre_not_running_success_iff (rc : Option Int) (pid : Nat)
    (children running : List Nat) :
    padre_not_running rc pid children running = .ok () ↔
      (rc = some 0 ∧ pid ∉ running ∧ ∀ c ∈ children, c ∉ running) := by
  unfold padre_not_running
  split_ifs with h1 h2 h3
  · simp [h1]
  · simp only [List.contains, List.elem_eq_mem, decide_eq_true_eq] at h2
    simp [h2]
  · simp only [List.any_eq_true, List.contains, List.elem_eq_mem, decide_eq_true_eq] at h3
    obtain ⟨c, hc, hcr⟩ := h3
    constructor
    · intro hcon; cases hcon
    · rintro ⟨-, -, hall⟩
      exact absurd hcr (hall c hc)
  · simp only [List.contains, List.elem_eq_mem, decide_eq_true_eq] at h2
    simp only [List.any_eq_true, List.contains, List.elem_eq_mem, decide_eq_true_eq] at h3
    push_neg at h1 h3
    exact iff_of_true rfl ⟨h1, h2, h3⟩

/-! ## Claim C8 (corrected) -/

/-- C8 counterexample: the claim says an actual notification with more
arguments than the expected pattern list makes the comparison raise
`IndexError`.  With actual arguments `[1, 2]` against the single expected
pattern `"9"`, the first position already fails the regex match, the loop
breaks, and the comparison reports a clean non-match instead. -/
theorem C8_more_args_clean_failure_cex :
    argsMatch reMatchLit [PyJson.int 1, PyJson.int 2] [PyJson.str "9"] = .ok false := by
  decide

/-- C8 amended: the positional comparison iterates over the actual
notification's argument list, so (i) when the actual list is strictly longer
than the expected pattern list AND every position covered by the patterns is
accepted, the loop indexes past the pattern list and raises an uncaught
`IndexError` (an earlier positional mismatch instead breaks out cleanly);
and (ii) when the actual list is no longer than the pattern list and every
covered position is accepted, the notification matches — surplus expected
patterns are never consulted. -/
theorem C8_positional_iteration_amended :
    (∀ (rm : String → String → Bool) (actual expected : List PyJson),
      expected.length < actual.length →
      (∀ p ∈ actual.zip expected, p.2.isDict = true ∨ rm (pyStrJ p.2) (pyStrJ p.1) = true) →
      argsMatch rm actual expected = .error .indexError) ∧
    (∀ (rm : String → String → Bool) (actual expected : List PyJson),
      actual.length ≤ expected.length →
      (∀ p ∈ actual.zip expected, p.2.isDict = true ∨ rm (pyStrJ p.2) (pyStrJ p.1) = true) →
      argsMatch rm actual expected = .ok true) :=
  ⟨fun rm a ex h hall => argsMatch_overflow rm a ex h hall,
   fun rm a ex h hall => (argsMatch_ok_true_iff rm a ex h).mpr hall⟩

/-! ## Claim C9 (confirmed) -/

/-- C9: `check_json` presupposes a mapping-valued response body; for any
non-mapping body (list, string, number, boolean or null) it raises an
uncaught `AttributeError` on `.keys()` — before the expected body is even
inspected — rather than reporting a body mismatch. -/
theorem C9_nonmapping_attribute_error (rm : String → String → Bool) (a e : PyJson)
    (h : a.isDict = false) : check_json rm a e = .error .attributeError := by
  cases a with
  | dict kvs => simp [PyJson.isDict] at h
  | null => cases e <;> simp [check_json]
  | bool b => cases e <;> simp [check_json]
  | int n => cases e <;> simp [check_json]
  | str s => cases e <;> simp [check_json]
  | list xs => cases e <;> simp [check_json]

/-- C9 witness: an integer body against an equal integer expected body. -/
theorem C9_nonmapping_attribute_error_witness :
    (PyJson.isDict (PyJson.int 5) = false) ∧
    check_json (fun _ _ => false) (PyJson.int 5) (PyJson.int 5) = .error .attributeError :=
  ⟨rfl, C9_nonmapping_attribute_error (fun _ _ => false) _ _ rfl⟩

/-! ## Claim C10 (confirmed) -/

/-- C10: the session's port is allocated on first read and cached: the first
read returns the allocator's draw `a`, and every later read returns that
same value no matter what the allocator would return, for the session's
lifetime.  The hypothesis `a ≠ 0` reflects that `sock.bind(("", 0))` never
assigns port `0` (a zero port would fail Python's `if not self._port`
truthiness test and be re-allocated). -/
theorem C10_port_read_idempotent (e : String) (d t : Option String)
    (a : Nat) (rest : List Nat) (ha : a ≠ 0) :
    (Padre.init e d t).portReads (a :: rest) = a :: rest.map (fun _ => a) := by
  have hcached :
      Padre.portReads { Padre.init e d t with portF := some a } rest =
        rest.map (fun _ => a) :=
    Padre.portReads_cached rest _ a rfl ha
  show a :: Padre.portReads { Padre.init e d t with portF := some a } rest =
    a :: rest.map (fun _ => a)
  rw [hcached]

/-- C10 witness: three reads with allocator draws `8080, 9999, 7` all return
`8080`. -/
theorem C10_port_read_idempotent_witness :
    (Padre.init "test_prog" none none).portReads (8080 :: [9999, 7]) =
      8080 :: [9999, 7].map (fun _ => 8080) :=
  C10_port_read_idempotent "test_prog" none none 8080 [9999, 7] (by decide)

/-! ## Claims C1 and C4: concrete counterexamples -/

/-- C1 counterexample: the claim says a JSON value split at an arbitrary byte
offset across two read calls still decodes as one value because the decoder
preserves and prepends the undecoded suffix.  Splitting the valid value
`[2,{"status":"OK"}]` at byte offset 5 refutes this: the first call fails
with a `ValueError` (unterminated string) — nothing is retained for the
next call — while the unsplit buffer decodes to the single value in one
call. -/
theorem C1_split_midvalue_cex :
    "[2,\x7b\"".toList ++ "status\":\"OK\"\x7d]".toList =
      "[2,\x7b\"status\":\"OK\"\x7d]".toList ∧
    do_read_from_padre ("[2,\x7b\"".toList) = .error errUnterminated ∧
    do_read_from_padre ("[2,\x7b\"status\":\"OK\"\x7d]".toList) =
      .ok ["[2,\x7b\"status\":\"OK\"\x7d]".toList] := by
  refine ⟨by decide, by decide, by decide⟩

/-- C4 counterexample: the claim quantifies over buffers of complete valid
JSON values with ZERO or more whitespace characters between them.  The
values `1` and `2` are each complete and valid, but concatenated with zero
whitespace the buffer `12` decodes to the single value `12` — one message,
not two, and not the original values. -/
theorem C4_zero_whitespace_merge_cex :
    ValidJson "1".toList = true ∧ ValidJson "2".toList = true ∧
    "1".toList ++ "2".toList = "12".toList ∧
    do_read_from_padre "12".toList = .ok ["12".toList] ∧
    do_read_from_padre "12".toList ≠ .ok ["1".toList, "2".toList] := by
  refine ⟨by decide, by decide, by decide, by decide, by decide⟩

/-! ## Claims C1 and C4: amended boundary/separator theorems -/

/-- C4 (amended): for every buffer of complete valid JSON values with a
nonempty whitespace separator between consecutive values (arbitrary
all-whitespace leading prefix `w0`, arbitrary trailing whitespace), one
call of the frame decoder returns exactly those values, in their original
order. -/
theorem C4_whitespace_separated_values_amended (w0 : List Char)
    (ps : List (List Char × List Char)) (hw0 : w0.all wsChar = true)
    (hok : chainOk ps = true) :
    do_read_from_padre (w0 ++ chain ps) = .ok (ps.map Prod.fst) :=
  do_read_chain w0 ps hw0 hok

/-- C4 witness: the scenario's byte stream — `["call","f",[1]]`, one space,
`[2,{"status":"OK"}]` — yields exactly those two messages. -/
theorem C4_whitespace_separated_values_amended_witness :
    (" ".toList.all wsChar = true) ∧
    chainOk [("[\"call\",\"f\",[1]]".toList, " ".toList),
      ("[2,\x7b\"status\":\"OK\"\x7d]".toList, [])] = true ∧
    do_read_from_padre (" ".toList ++
      chain [("[\"call\",\"f\",[1]]".toList, " ".toList),
        ("[2,\x7b\"status\":\"OK\"\x7d]".toList, [])]) =
      .ok ([("[\"call\",\"f\",[1]]".toList, " ".toList),
        ("[2,\x7b\"status\":\"OK\"\x7d]".toList, [])].map Prod.fst) :=
  ⟨by decide, by decide,
    C4_whitespace_separated_values_amended (" ".toList) _ (by decide) (by decide)⟩

/-- C1 (amended): the frame decoder keeps no leftover between read calls;
when the split offset falls at a whitespace boundary between complete
values, both per-call decodes succeed and together produce exactly the
values of the one-call decode of the unsplit buffer. -/
theorem C1_boundary_split_amended (w0 : List Char)
    (ps1 ps2 : List (List Char × List Char)) (hw0 : w0.all wsChar = true)
    (hok : chainOk (ps1 ++ ps2) = true) :
    do_read_from_padre (w0 ++ chain ps1) = .ok (ps1.map Prod.fst) ∧
    do_read_from_padre (chain ps2) = .ok (ps2.map Prod.fst) ∧
    do_read_from_padre ((w0 ++ chain ps1) ++ chain ps2) =
      .ok (ps1.map Prod.fst ++ ps2.map Prod.fst) := by
  obtain ⟨h1, h2⟩ := chainOk_append ps1 ps2 hok
  refine ⟨do_read_chain w0 ps1 hw0 h1, ?_, ?_⟩
  · have h := do_read_chain [] ps2 rfl h2
    simpa using h
  · have h := do_read_chain w0 (ps1 ++ ps2) hw0 hok
    rw [chain_append, List.map_append] at h
    rw [List.append_assoc]
    exact h

/-- C1 witness: splitting the stream `["call","f",[1]] [2,{"status":"OK"}]`
at the whitespace boundary between the two values: each half decodes on its
own, and the two results concatenate to the one-call decode. -/
theorem C1_boundary_split_amended_witness :
    (" ".toList.all wsChar = true) ∧
    chainOk ([("[\"call\",\"f\",[1]]".toList, " ".toList)] ++
      [("[2,\x7b\"status\":\"OK\"\x7d]".toList, ([] : List Char))]) = true ∧
    (do_read_from_padre (" ".toList ++
        chain [("[\"call\",\"f\",[1]]".toList, " ".toList)]) =
      .ok ([("[\"call\",\"f\",[1]]".toList, " ".toList)].map Prod.fst) ∧
    do_read_from_padre
        (chain [("[2,\x7b\"status\":\"OK\"\x7d]".toList, ([] : List Char))]) =
      .ok ([("[2,\x7b\"status\":\"OK\"\x7d]".toList, ([] : List Char))].map Prod.fst) ∧
    do_read_from_padre ((" ".toList ++
        chain [("[\"call\",\"f\",[1]]".toList, " ".toList)]) ++
        chain [("[2,\x7b\"status\":\"OK\"\x7d]".toList, ([] : List Char))]) =
      .ok ([("[\"call\",\"f\",[1]]".toList, " ".toList)].map Prod.fst ++
        [("[2,\x7b\"status\":\"OK\"\x7d]".toList, ([] : List Char))].map Prod.fst)) :=
  ⟨by decide, by decide,
    C1_boundary_split_amended (" ".toList) _ _ (by decide) (by decide)⟩


end VimPadre
